import Mathlib

set_option maxRecDepth 4000

/-
Verification of the style-cascade and block-layout core of the browsah
browser engine.

The Rust sources are embedded shallowly:

  * css crate (css/src/lib.rs): Value, Unit, Selector, SimpleSelector,
    Combinator, Declaration, Ruleset, Value::to_px (invoked as try_to_px
    by the layout module), Value::is_width / is_border_style / is_color,
    MultiValue::is_space_separated / new_space_seperated.
  * src/style.rs: Specificity with its weighted ordering, StyleMap,
    StyledElement::insert, selector matching, apply_styles / apply_rule /
    apply_rule_unconditionally, the EXCLUDED and INHERITED tables and the
    From(DOMElement) conversion.
  * src/layout/mod.rs and src/layout/properties.rs: Dimensions, Rect,
    EdgeSizes, get_margins / get_padding / get_border, the block width,
    position, children and height passes, and calculate_font_size.

f64 is modelled by rationals; the f64-to-isize casts that the width pass
performs are modelled by integer truncation toward zero.  Rust HashMaps
are modelled by association lists without duplicate keys, with in-place
replacement on insert.  External collaborators (the glyph rasterizer used
for text measurement) are abstracted as function parameters.
-/

/-! ## The css crate value algebra -/

/-- Operator from css/src/lib.rs: separators inside a MultiValue. -/
inductive Operator where
  | slash
  | comma
  | space
  | equals
deriving DecidableEq, Repr

/-- ColorValue from css/src/lib.rs (four u8 channels). -/
structure ColorValue where
  r : Nat
  g : Nat
  b : Nat
  a : Nat
deriving DecidableEq, Repr

/-- Unit from css/src/lib.rs (named CSSUnit here because Unit is taken).
The variant inQ stands for the source variant In. -/
inductive CSSUnit where
  | cm
  | mm
  | q
  | inQ
  | pc
  | pt
  | px
  | em
  | ex
  | ch
  | rem
  | lh
  | vw
  | vh
  | vmin
  | vmax
deriving DecidableEq, Repr

/-- Value from css/src/lib.rs.  The source variant String is stringV here,
Function carries its name and arguments inline, and Multiple carries the
MultiValue payload (a list of optional-operator/value pairs) inline. -/
inductive Value where
  | keyword (s : String)
  | stringV (s : String)
  | url (s : String)
  | number (n : ℚ)
  | percentage (n : ℚ)
  | length (n : ℚ) (u : CSSUnit)
  | color (c : ColorValue)
  | function (name : String) (args : List Value)
  | multiple (vs : List (Option Operator × Value))
deriving Repr

mutual

/-- Structural equality of values: the PartialEq instance derived for
Value in css/src/lib.rs. -/
def valueBeq : Value → Value → Bool
  | .keyword a, .keyword b => a == b
  | .stringV a, .stringV b => a == b
  | .url a, .url b => a == b
  | .number a, .number b => a == b
  | .percentage a, .percentage b => a == b
  | .length a u, .length b v => a == b && u == v
  | .color a, .color b => a == b
  | .function n a, .function m b => n == m && valueListBeq a b
  | .multiple a, .multiple b => multiValueBeq a b
  | _, _ => false

/-- PartialEq on a list of values (Function arguments). -/
def valueListBeq : List Value → List Value → Bool
  | [], [] => true
  | a :: as, b :: bs => valueBeq a b && valueListBeq as bs
  | _, _ => false

/-- PartialEq on a MultiValue payload. -/
def multiValueBeq : List (Option Operator × Value) → List (Option Operator × Value) → Bool
  | [], [] => true
  | (o1, v1) :: as, (o2, v2) :: bs => o1 == o2 && valueBeq v1 v2 && multiValueBeq as bs
  | _, _ => false

end

/-- Value::to_px from css/src/lib.rs, invoked as try_to_px by
src/layout/mod.rs: convert a value to a concrete pixel size, scaling
em lengths and percentages by the font size. -/
def try_to_px (v : Value) (font_size : ℚ) : Option ℚ :=
  match v with
  | .number n => some n
  | .length n .px => some n
  | .length n .em => some (n * font_size)
  | .percentage n => some (n * font_size)
  | _ => none

/-- Value::is_width from css/src/lib.rs. -/
def is_width (v : Value) : Bool :=
  match v with
  | .keyword kw => ["thin", "medium", "thick"].contains kw
  | .number _ => true
  | .length _ _ => true
  | _ => false

/-- Value::is_border_style from css/src/lib.rs. -/
def is_border_style (v : Value) : Bool :=
  match v with
  | .keyword kw =>
      ["none", "hidden", "dotted", "dashed", "solid", "double", "groove",
       "ridge", "inset", "outset"].contains kw
  | _ => false

/-- Value::is_color from css/src/lib.rs. -/
def is_color (v : Value) : Bool :=
  match v with
  | .keyword _ => false
  | .color _ => true
  | .function f _ => ["rgb", "rgba", "hsl", "hsla", "hwb"].contains f
  | _ => false

/-- MultiValue::is_space_separated from css/src/lib.rs: every explicit
operator in the list is Space. -/
def mvIsSpaceSeparated (vs : List (Option Operator × Value)) : Bool :=
  vs.all (fun v =>
    match v.1 with
    | some op => op == Operator.space
    | none => true)

/-- MultiValue::new_space_seperated from css/src/lib.rs: first value with
no operator, every later value preceded by Space.  (The source indexes
values[0] unconditionally; on an empty input it panics, modelled by
returning the empty payload, a case its callers never reach.) -/
def mvNewSpaceSeparated (values : List Value) : List (Option Operator × Value) :=
  match values with
  | [] => []
  | v :: rest => (none, v) :: rest.map (fun v => (some Operator.space, v))

/-! ## Selectors -/

/-- SimpleSelector from css/src/lib.rs.  Source names: Type, Universal,
Attribute, Class, PseudoClass, ID (renamed where Lean keywords clash). -/
inductive SimpleSelector where
  | typeSel (name : String)
  | universal
  | attributeSel (s : String)
  | classSel (name : String)
  | pseudoClass (s : String)
  | idSel (s : String)
deriving DecidableEq, Repr

/-- Combinator from css/src/lib.rs. -/
inductive Combinator where
  | descendant
  | child
  | nextSibling
  | subsequentSibling
deriving DecidableEq, Repr

/-- Selector from css/src/lib.rs. -/
inductive Selector where
  | simple (s : SimpleSelector)
  | compound (ss : List SimpleSelector)
  | combinator (l : Selector) (c : Combinator) (r : Selector)
deriving DecidableEq, Repr

/-- Declaration from css/src/lib.rs: a property name and a value. -/
structure Declaration where
  name : String
  value : Value
deriving Repr

/-- Ruleset from css/src/lib.rs. -/
structure Ruleset where
  selectors : List Selector
  declarations : List Declaration
deriving Repr

/-! ## Specificity (src/style.rs) -/

/-- Specificity from src/style.rs: counters for attribute, id,
class-or-pseudo and type selector parts. -/
structure Specificity where
  attrs : Nat
  ids : Nat
  cls : Nat
  elts : Nat
deriving DecidableEq, Repr

/-- The weighted value through which PartialOrd and Ord for Specificity
compare: attrs*1000 + ids*100 + cls*10 + elts. -/
def Specificity.weight (s : Specificity) : Nat :=
  s.attrs * 1000 + s.ids * 100 + s.cls * 10 + s.elts

/-- Componentwise addition (the Add instance of src/style.rs). -/
def Specificity.add (a b : Specificity) : Specificity :=
  ⟨a.attrs + b.attrs, a.ids + b.ids, a.cls + b.cls, a.elts + b.elts⟩

/-- From(SimpleSelector) for Specificity in src/style.rs. -/
def simpleSelectorSpec : SimpleSelector → Specificity
  | .typeSel _ => ⟨0, 0, 0, 1⟩
  | .universal => ⟨0, 0, 0, 0⟩
  | .attributeSel _ => ⟨1, 0, 0, 0⟩
  | .classSel _ => ⟨0, 0, 1, 0⟩
  | .pseudoClass _ => ⟨0, 0, 1, 0⟩
  | .idSel _ => ⟨0, 1, 0, 0⟩

/-- From(Selector) for Specificity in src/style.rs: Compound sums its
constituents (the Sum instance folds add from (0,0,0,0)), Combinator adds
both sides. -/
def selectorSpec : Selector → Specificity
  | .simple s => simpleSelectorSpec s
  | .compound ss => (ss.map simpleSelectorSpec).foldl Specificity.add ⟨0, 0, 0, 0⟩
  | .combinator l _ r => Specificity.add (selectorSpec l) (selectorSpec r)

/-! ## Style maps (src/style.rs) -/

/-- StyleMap from src/style.rs: a HashMap from property name to the
winning value and the specificity that won it, modelled as an association
list with unique keys. -/
abbrev StyleMap := List (String × Value × Specificity)

/-- Lookup of the stored value/specificity pair for a key. -/
def smGetPair (m : StyleMap) (k : String) : Option (Value × Specificity) :=
  (m.find? (fun e => e.1 == k)).map (fun e => e.2)

/-- StyleMap::get from src/style.rs: the winning value for a key. -/
def smGet (m : StyleMap) (k : String) : Option Value :=
  (smGetPair m k).map (fun p => p.1)

/-- HashMap::insert: replace the stored entry in place when the key is
present, append otherwise. -/
def smPut (m : StyleMap) (k : String) (vs : Value × Specificity) : StyleMap :=
  if m.any (fun e => e.1 == k) then
    m.map (fun e => if e.1 == k then (k, vs.1, vs.2) else e)
  else
    m ++ [(k, vs.1, vs.2)]

/-- StyledElement::insert from src/style.rs, restricted to the style map
it updates: store (value, spec) only if the key is absent or spec is at
least the stored specificity (both compared through the weight). -/
def smInsert (m : StyleMap) (key : String) (value : Value) (spec : Specificity) : StyleMap :=
  match smGetPair m key with
  | some (_, existing) =>
      if existing.weight ≤ spec.weight then smPut m key (value, spec) else m
  | none => smPut m key (value, spec)

/-! ## DOM and styled trees -/

/-- DOMAttributes from html/src/lib.rs: a HashMap from attribute name to
value, modelled as an association list queried by first match. -/
abbrev DOMAttributes := List (String × String)

/-- Attribute lookup (HashMap::get). -/
def attrsGet (a : DOMAttributes) (k : String) : Option String :=
  (a.find? (fun e => e.1 == k)).map (fun e => e.2)

mutual

/-- DOMElement from html/src/lib.rs. -/
inductive DOMElement where
  | mk (name : String) (attributes : DOMAttributes) (contents : List DOMContent)

/-- DOMContent from html/src/lib.rs. -/
inductive DOMContent where
  | text (s : String)
  | element (e : DOMElement)

end

def DOMElement.name : DOMElement → String
  | .mk n _ _ => n

def DOMElement.attributes : DOMElement → DOMAttributes
  | .mk _ a _ => a

def DOMElement.contents : DOMElement → List DOMContent
  | .mk _ _ cs => cs

mutual

/-- StyledElement from src/style.rs. -/
inductive StyledElement where
  | mk (name : String) (attributes : DOMAttributes)
       (contents : List StyledContent) (styles : StyleMap)

/-- StyledContent from src/style.rs; the text variant inlines the
StyledString fields (contents, styles). -/
inductive StyledContent where
  | element (e : StyledElement)
  | text (contents : String) (styles : StyleMap)

end

def StyledElement.name : StyledElement → String
  | .mk n _ _ _ => n

def StyledElement.attributes : StyledElement → DOMAttributes
  | .mk _ a _ _ => a

def StyledElement.contents : StyledElement → List StyledContent
  | .mk _ _ cs _ => cs

def StyledElement.styles : StyledElement → StyleMap
  | .mk _ _ _ st => st

/-! ## Excluded elements and the DOM conversion (src/style.rs) -/

/-- EXCLUDED from src/style.rs: elements that do not enter the style
tree. -/
def EXCLUDED : List String :=
  ["head", "meta", "title", "link", "style", "script", "datalist",
   "param", "noframes", "template"]

/-- element_is_excluded from src/style.rs. -/
def element_is_excluded (elt : DOMElement) : Bool :=
  EXCLUDED.contains elt.name

mutual

/-- From(DOMElement) for StyledElement in src/style.rs: keep the name and
attributes, convert the contents, start with an empty style map. -/
def styledOfDOMElement : DOMElement → StyledElement
  | .mk n a cs => .mk n a (styledOfDOMContents cs) []

/-- The contents conversion: drop element children that are excluded,
convert everything else in order (the filter and map of the source
written as one recursion).  Text children are kept and get empty style
maps (the From(String) instances for StyledString). -/
def styledOfDOMContents : List DOMContent → List StyledContent
  | [] => []
  | .element e :: rest =>
      if element_is_excluded e then styledOfDOMContents rest
      else .element (styledOfDOMElement e) :: styledOfDOMContents rest
  | .text s :: rest => .text s [] :: styledOfDOMContents rest

end

/-! ## Selector matching (src/style.rs) -/

/-- Rust str::split_whitespace: split on whitespace runs, yielding no
empty tokens; written as a structural recursion over the characters so
that it evaluates in the kernel. -/
def splitWhitespaceGo (cur : List Char) (acc : List String) : List Char → List String
  | [] => if cur.isEmpty then acc.reverse else (String.mk cur.reverse :: acc).reverse
  | c :: rest =>
    if c.isWhitespace then
      if cur.isEmpty then splitWhitespaceGo [] acc rest
      else splitWhitespaceGo [] (String.mk cur.reverse :: acc) rest
    else splitWhitespaceGo (c :: cur) acc rest

/-- Split a string on whitespace, Rust-style. -/
def splitWhitespace (s : String) : List String :=
  splitWhitespaceGo [] [] s.data

/-- StyledElement::has_class from src/style.rs: the class attribute is
present and, split on whitespace, contains the class exactly. -/
def has_class (e : StyledElement) (cls : String) : Bool :=
  match attrsGet e.attributes "class" with
  | some c => (splitWhitespace c).any (fun t => t == cls)
  | none => false

/-- StyledElement::id_is from src/style.rs: the id attribute is present
and equals the id exactly. -/
def id_is (e : StyledElement) (i : String) : Bool :=
  match attrsGet e.attributes "id" with
  | some c => c == i
  | none => false

/-- StyledElement::does_simple_selector_apply from src/style.rs. -/
def does_simple_selector_apply (e : StyledElement) (sel : SimpleSelector) : Bool :=
  match sel with
  | .typeSel name => e.name == name
  | .universal => true
  | .attributeSel _ => false
  | .classSel name => has_class e name
  | .pseudoClass _ => false
  | .idSel i => id_is e i

/-- StyledElement::does_rule_apply from src/style.rs: compound selectors
match if any constituent matches, combinators never match. -/
def does_rule_apply (e : StyledElement) (sel : Selector) : Bool :=
  match sel with
  | .simple s => does_simple_selector_apply e s
  | .compound ss => ss.any (fun s => does_simple_selector_apply e s)
  | .combinator _ _ _ => false

/-! ## The cascade (src/style.rs) -/

/-- INHERITED from src/style.rs: the allow-list of inheritable
properties. -/
def INHERITED : List String :=
  ["azimuth", "border-collapse", "border-spacing", "caption-side",
   "color", "cursor", "direction", "elevation", "empty-cells",
   "font-family", "font-size", "font-style", "font-variant",
   "font-weight", "font", "letter-spacing", "line-height",
   "list-style-image", "list-style-position", "list-style-type",
   "list-style", "orphans", "pitch-range", "pitch", "quotes",
   "richness", "speak-header", "speak-numeral", "speak-punctuation",
   "speak", "speech-rate", "stress", "text-align", "text-indent",
   "text-transform", "visibility", "voice-family", "volume",
   "white-space", "widows", "word-spacing"]

/-- The display:none test inside apply_rule: some declaration has name
display and value Keyword none. -/
def hasDisplayNone (decls : List Declaration) : Bool :=
  decls.any (fun decl => decl.name == "display" && valueBeq decl.value (.keyword "none"))

/-- Iterator::max over specificities, by the weight; on ties the last
maximal element is returned, as in Rust. -/
def maxSpec (l : List Specificity) : Option Specificity :=
  l.foldl
    (fun acc s =>
      match acc with
      | none => some s
      | some m => if s.weight < m.weight then some m else some s)
    none

/-- The match step of apply_rule: the maximum specificity among the
selectors of the ruleset that select this element, if any. -/
def matchSpec (e : StyledElement) (style : Ruleset) : Option Specificity :=
  maxSpec ((style.selectors.filter (fun r => does_rule_apply e r)).map selectorSpec)

mutual

/-- Node count of a styled element (independent of the style maps). -/
def eltSize : StyledElement → Nat
  | .mk _ _ cs _ => 1 + contentsSize cs

/-- Node count of a content list. -/
def contentsSize : List StyledContent → Nat
  | [] => 0
  | .element e :: rest => 1 + eltSize e + contentsSize rest
  | .text _ _ :: rest => 1 + contentsSize rest

end

mutual

/-- StyledElement::apply_rule_unconditionally from src/style.rs: insert
every declaration at this node at the given specificity, then recurse
into element children with the inherited subset (everything when
inherit_all, otherwise only INHERITED properties), marking the recursive
calls inherit_all. -/
def apply_rule_unconditionally (e : StyledElement) (declarations : List Declaration)
    (spec : Specificity) (inherit_all : Bool) : StyledElement :=
  match e with
  | .mk n a cs styles =>
    let styles := declarations.foldl (fun m d => smInsert m d.name d.value spec) styles
    let inherited :=
      if inherit_all then declarations
      else declarations.filter (fun d => INHERITED.contains d.name)
    .mk n a (aruContents cs inherited spec) styles

/-- The child loop of apply_rule_unconditionally: element children are
rewritten recursively, text children are untouched. -/
def aruContents (cs : List StyledContent) (inherited : List Declaration)
    (spec : Specificity) : List StyledContent :=
  match cs with
  | [] => []
  | .element e :: rest =>
      .element (apply_rule_unconditionally e inherited spec true) :: aruContents rest inherited spec
  | .text s st :: rest => .text s st :: aruContents rest inherited spec

end

mutual

theorem eltSize_aru (e : StyledElement) (ds : List Declaration) (spec : Specificity)
    (b : Bool) : eltSize (apply_rule_unconditionally e ds spec b) = eltSize e := by
  match e with
  | .mk n a cs styles =>
    simp only [apply_rule_unconditionally, eltSize]
    rw [contentsSize_aru]

theorem contentsSize_aru (cs : List StyledContent) (ds : List Declaration)
    (spec : Specificity) : contentsSize (aruContents cs ds spec) = contentsSize cs := by
  match cs with
  | [] => rfl
  | .element e :: rest =>
    simp only [aruContents, contentsSize]
    rw [eltSize_aru, contentsSize_aru]
  | .text s st :: rest =>
    simp only [aruContents, contentsSize]
    rw [contentsSize_aru]

end

theorem eltSize_pos (e : StyledElement) : 0 < eltSize e := by
  match e with
  | .mk n a cs st => simp [eltSize]

mutual

/-- StyledElement::apply_rule from src/style.rs.  Returns the deletion
flag together with the rewritten element (the Rust version mutates in
place).  If some selector matches: with a display:none declaration the
element reports itself for deletion, untouched; otherwise all
declarations are applied at the maximal matching specificity.  In every
surviving case the rule is then applied to the element children and the
ones that request deletion are removed. -/
def apply_rule (e : StyledElement) (style : Ruleset) : Bool × StyledElement :=
  match matchSpec e style with
  | some spec =>
      if hasDisplayNone style.declarations then (true, e)
      else
        (false, applyRuleChildren (apply_rule_unconditionally e style.declarations spec false) style)
  | none => (false, applyRuleChildren e style)
termination_by 4 * eltSize e + 2
decreasing_by all_goals (try simp only [eltSize_aru, eltSize, contentsSize]); omega

/-- The child phase of apply_rule: rewrite the contents, keeping the
fields of the node itself. -/
def applyRuleChildren (e : StyledElement) (style : Ruleset) : StyledElement :=
  match e with
  | .mk n a cs st => .mk n a (applyRuleContents cs style) st
termination_by 4 * eltSize e + 1
decreasing_by all_goals (try simp only [eltSize_aru, eltSize, contentsSize]); omega

/-- The loop body of apply_rule over the contents: element children are
processed recursively and dropped when they request deletion; text
children are kept. -/
def applyRuleContents (cs : List StyledContent) (style : Ruleset) : List StyledContent :=
  match cs with
  | [] => []
  | .element el :: rest =>
      match apply_rule el style with
      | (true, _) => applyRuleContents rest style
      | (false, el2) => .element el2 :: applyRuleContents rest style
  | .text s st :: rest => .text s st :: applyRuleContents rest style
termination_by 4 * contentsSize cs + 3
decreasing_by all_goals (try simp only [eltSize_aru, eltSize, contentsSize]); omega

end

/-- StyledElement::apply_styles from src/style.rs: apply each ruleset in
order; the deletion flag returned at the root is discarded. -/
def apply_styles (e : StyledElement) (styles : List Ruleset) : StyledElement :=
  styles.foldl (fun acc r => (apply_rule acc r).2) e

/-! ## Style map lemmas -/

theorem beq_string_false {a b : String} (h : a ≠ b) : (a == b) = false := by
  simp [h]

theorem find_map_replace (m : StyleMap) (k : String) (vs : Value × Specificity)
    (h : m.any (fun e => e.1 == k) = true) :
    (m.map (fun e => if e.1 == k then (k, vs.1, vs.2) else e)).find? (fun e => e.1 == k)
      = some (k, vs.1, vs.2) := by
  induction m with
  | nil => simp at h
  | cons e rest ih =>
    by_cases he : e.1 = k
    · have h1 : (e.1 == k) = true := by simp [he]
      simp only [List.map_cons, h1, if_true]
      simp [List.find?_cons]
    · have h1 : (e.1 == k) = false := beq_string_false he
      simp only [List.any_cons, h1, Bool.false_or] at h
      simp only [List.map_cons, h1, Bool.false_eq_true, if_false]
      simp only [List.find?_cons, h1, Bool.false_eq_true, if_false]
      exact ih h

theorem find_map_replace_ne (m : StyleMap) (k k' : String) (vs : Value × Specificity)
    (hne : k' ≠ k) :
    (m.map (fun e => if e.1 == k then (k, vs.1, vs.2) else e)).find? (fun e => e.1 == k')
      = m.find? (fun e => e.1 == k') := by
  induction m with
  | nil => rfl
  | cons e rest ih =>
    by_cases he : e.1 = k
    · have h1 : (e.1 == k) = true := by simp [he]
      have h2 : ((k : String) == k') = false := beq_string_false (Ne.symm hne)
      have h3 : (e.1 == k') = false := by rw [he]; exact h2
      simp only [List.map_cons, h1, if_true]
      simp only [List.find?_cons, h2, h3, Bool.false_eq_true, if_false]
      exact ih
    · have h1 : (e.1 == k) = false := beq_string_false he
      simp only [List.map_cons, h1, Bool.false_eq_true, if_false]
      cases hp : (e.1 == k') with
      | true =>
        simp only [List.find?_cons, hp, if_true]
      | false =>
        simp only [List.find?_cons, hp, Bool.false_eq_true, if_false]
        exact ih

theorem find_append_single (m : StyleMap) (k : String) (vs : Value × Specificity)
    (h : m.any (fun e => e.1 == k) = false) :
    (m ++ [(k, vs.1, vs.2)]).find? (fun e => e.1 == k) = some (k, vs.1, vs.2) := by
  induction m with
  | nil => simp [List.find?]
  | cons e rest ih =>
    simp only [List.any_cons, Bool.or_eq_false_iff] at h
    simp only [List.cons_append]
    have hf : (e.1 == k) = false := by simp [h.1]
    simp only [List.find?_cons, hf, Bool.false_eq_true, if_false]
    exact ih h.2

theorem find_append_single_ne (m : StyleMap) (k k' : String) (vs : Value × Specificity)
    (hne : k' ≠ k) :
    (m ++ [(k, vs.1, vs.2)]).find? (fun e => e.1 == k') = m.find? (fun e => e.1 == k') := by
  induction m with
  | nil =>
    have hf : ((k : String) == k') = false := beq_string_false (Ne.symm hne)
    simp only [List.nil_append, List.find?_cons, hf, Bool.false_eq_true, if_false]
  | cons e rest ih =>
    simp only [List.cons_append]
    cases hp : (e.1 == k') with
    | true =>
      simp only [List.find?_cons, hp, if_true]
    | false =>
      simp only [List.find?_cons, hp, Bool.false_eq_true, if_false]
      exact ih

theorem smGetPair_put (m : StyleMap) (k : String) (vs : Value × Specificity) :
    smGetPair (smPut m k vs) k = some vs := by
  unfold smPut smGetPair
  split
  · rename_i h
    rw [find_map_replace m k vs h]
    rfl
  · rename_i h
    rw [find_append_single m k vs (Bool.eq_false_iff.2 h)]
    rfl

theorem smGetPair_put_ne (m : StyleMap) (k k' : String) (vs : Value × Specificity)
    (hne : k' ≠ k) : smGetPair (smPut m k vs) k' = smGetPair m k' := by
  unfold smPut smGetPair
  split
  · rw [find_map_replace_ne m k k' vs hne]
  · rw [find_append_single_ne m k k' vs hne]

/-! ## Claim C1 -/

/-- Example element and rules for C1: a div with id x, styled by
div (color red) and by the id selector (color blue). -/
def c1Elt : StyledElement := .mk "div" [("id", "x")] [] []

def c1DivRule : Ruleset :=
  ⟨[.simple (.typeSel "div")], [⟨"color", .keyword "red"⟩]⟩

def c1IdRule : Ruleset :=
  ⟨[.simple (.idSel "x")], [⟨"color", .keyword "blue"⟩]⟩

/-- C1: insert(key, value, spec) stores (value, spec) when the key is
absent or when spec is at least the stored specificity under the
weighted comparison attrs*1000 + ids*100 + cls*10 + elts, and leaves the
entry unchanged when the stored specificity is strictly greater.
Consequently an element with id x styled by div (specificity (0,0,0,1),
color red) and by the id rule (specificity (0,1,0,0), color blue)
resolves color blue in either application order. -/
theorem c1_insert_specificity :
    (∀ (m : StyleMap) (key : String) (v : Value) (s : Specificity),
        smGetPair m key = none →
        smGetPair (smInsert m key v s) key = some (v, s))
    ∧ (∀ (m : StyleMap) (key : String) (v : Value) (s : Specificity)
          (v0 : Value) (s0 : Specificity),
        smGetPair m key = some (v0, s0) → s0.weight ≤ s.weight →
        smGetPair (smInsert m key v s) key = some (v, s))
    ∧ (∀ (m : StyleMap) (key : String) (v : Value) (s : Specificity)
          (v0 : Value) (s0 : Specificity),
        smGetPair m key = some (v0, s0) → s.weight < s0.weight →
        smInsert m key v s = m)
    ∧ smGet (apply_styles c1Elt [c1DivRule, c1IdRule]).styles "color"
        = some (.keyword "blue")
    ∧ smGet (apply_styles c1Elt [c1IdRule, c1DivRule]).styles "color"
        = some (.keyword "blue") := by
  refine ⟨?_, ?_, ?_, ?_, ?_⟩
  · intro m key v s h
    unfold smInsert
    rw [h]
    exact smGetPair_put m key (v, s)
  · intro m key v s v0 s0 h hle
    unfold smInsert
    rw [h]
    simp only [hle, if_true]
    exact smGetPair_put m key (v, s)
  · intro m key v s v0 s0 h hlt
    unfold smInsert
    rw [h]
    simp [Nat.not_le.2 hlt]
  · simp [apply_styles, apply_rule, c1Elt, c1DivRule, c1IdRule, matchSpec, does_rule_apply,
      does_simple_selector_apply, id_is, attrsGet, maxSpec, selectorSpec, simpleSelectorSpec,
      hasDisplayNone, valueBeq, apply_rule_unconditionally, aruContents, smInsert, smGetPair,
      smPut, smGet, applyRuleChildren, applyRuleContents, StyledElement.styles,
      StyledElement.name, StyledElement.attributes, Specificity.weight, INHERITED]
  · simp [apply_styles, apply_rule, c1Elt, c1DivRule, c1IdRule, matchSpec, does_rule_apply,
      does_simple_selector_apply, id_is, attrsGet, maxSpec, selectorSpec, simpleSelectorSpec,
      hasDisplayNone, valueBeq, apply_rule_unconditionally, aruContents, smInsert, smGetPair,
      smPut, smGet, applyRuleChildren, applyRuleContents, StyledElement.styles,
      StyledElement.name, StyledElement.attributes, Specificity.weight, INHERITED]

/-- Witness for C1: the three insert clauses applied at concrete
inputs. -/
theorem c1_insert_specificity_witness :
    smGetPair (smInsert [] "color" (.keyword "red") ⟨0, 0, 0, 1⟩) "color"
      = some (.keyword "red", ⟨0, 0, 0, 1⟩)
    ∧ smGetPair
        (smInsert [("color", .keyword "red", ⟨0, 0, 0, 1⟩)] "color" (.keyword "blue") ⟨0, 1, 0, 0⟩)
        "color" = some (.keyword "blue", ⟨0, 1, 0, 0⟩)
    ∧ smInsert [("color", .keyword "blue", ⟨0, 1, 0, 0⟩)] "color" (.keyword "red") ⟨0, 0, 0, 1⟩
        = [("color", .keyword "blue", ⟨0, 1, 0, 0⟩)] := by
  refine ⟨?_, ?_, ?_⟩
  · exact c1_insert_specificity.1 [] "color" (.keyword "red") ⟨0, 0, 0, 1⟩ rfl
  · exact c1_insert_specificity.2.1 _ "color" (.keyword "blue") ⟨0, 1, 0, 0⟩
      (.keyword "red") ⟨0, 0, 0, 1⟩ rfl (by decide)
  · exact c1_insert_specificity.2.2.1 _ "color" (.keyword "red") ⟨0, 0, 0, 1⟩
      (.keyword "blue") ⟨0, 1, 0, 0⟩ rfl (by decide)

/-! ## Claim C5 -/

/-- C5: a Compound selector matches iff at least one constituent simple
selector matches; Type(n) matches iff the tag name equals n, Universal
always matches, Class(c) matches iff the whitespace-split class
attribute contains c exactly, ID(i) matches iff the id attribute equals
i exactly, and Attribute and PseudoClass selectors never match. -/
theorem c5_compound_selector_matching :
    (∀ (e : StyledElement) (ss : List SimpleSelector),
        does_rule_apply e (.compound ss) = true
          ↔ ∃ s ∈ ss, does_simple_selector_apply e s = true)
    ∧ (∀ (e : StyledElement) (n : String),
        does_simple_selector_apply e (.typeSel n) = true ↔ e.name = n)
    ∧ (∀ (e : StyledElement),
        does_simple_selector_apply e .universal = true)
    ∧ (∀ (e : StyledElement) (c : String),
        does_simple_selector_apply e (.classSel c) = true
          ↔ ∃ cs, attrsGet e.attributes "class" = some cs ∧ c ∈ splitWhitespace cs)
    ∧ (∀ (e : StyledElement) (i : String),
        does_simple_selector_apply e (.idSel i) = true
          ↔ attrsGet e.attributes "id" = some i)
    ∧ (∀ (e : StyledElement) (a : String),
        does_simple_selector_apply e (.attributeSel a) = false)
    ∧ (∀ (e : StyledElement) (p : String),
        does_simple_selector_apply e (.pseudoClass p) = false) := by
  refine ⟨?_, ?_, ?_, ?_, ?_, ?_, ?_⟩
  · intro e ss
    simp [does_rule_apply, List.any_eq_true]
  · intro e n
    simp [does_simple_selector_apply]
  · intro e
    rfl
  · intro e c
    simp only [does_simple_selector_apply, has_class]
    cases h : attrsGet e.attributes "class" with
    | none => simp
    | some cs =>
      simp [List.any_eq_true]
  · intro e i
    simp only [does_simple_selector_apply, id_is]
    cases h : attrsGet e.attributes "id" with
    | none => simp
    | some s =>
      simp only [beq_iff_eq, Option.some.injEq]
  · intro e a
    rfl
  · intro e p
    rfl

/-! ## Basic facts about the cascade pass -/

theorem apply_rule_unconditionally_name (e : StyledElement) (ds : List Declaration)
    (spec : Specificity) (b : Bool) :
    (apply_rule_unconditionally e ds spec b).name = e.name := by
  match e with
  | .mk n a cs st => simp [apply_rule_unconditionally, StyledElement.name]

theorem apply_rule_unconditionally_attributes (e : StyledElement) (ds : List Declaration)
    (spec : Specificity) (b : Bool) :
    (apply_rule_unconditionally e ds spec b).attributes = e.attributes := by
  match e with
  | .mk n a cs st => simp [apply_rule_unconditionally, StyledElement.attributes]

theorem applyRuleChildren_name (e : StyledElement) (r : Ruleset) :
    (applyRuleChildren e r).name = e.name := by
  match e with
  | .mk n a cs st => simp [applyRuleChildren, StyledElement.name]

theorem applyRuleChildren_attributes (e : StyledElement) (r : Ruleset) :
    (applyRuleChildren e r).attributes = e.attributes := by
  match e with
  | .mk n a cs st => simp [applyRuleChildren, StyledElement.attributes]

theorem applyRuleChildren_styles (e : StyledElement) (r : Ruleset) :
    (applyRuleChildren e r).styles = e.styles := by
  match e with
  | .mk n a cs st => simp [applyRuleChildren, StyledElement.styles]

theorem applyRuleChildren_contents (e : StyledElement) (r : Ruleset) :
    (applyRuleChildren e r).contents = applyRuleContents e.contents r := by
  match e with
  | .mk n a cs st => simp [applyRuleChildren, StyledElement.contents]

theorem does_simple_selector_apply_congr (e e' : StyledElement)
    (hn : e.name = e'.name) (ha : e.attributes = e'.attributes) (s : SimpleSelector) :
    does_simple_selector_apply e s = does_simple_selector_apply e' s := by
  cases s <;> simp [does_simple_selector_apply, has_class, id_is, hn, ha]

theorem does_rule_apply_congr (e e' : StyledElement)
    (hn : e.name = e'.name) (ha : e.attributes = e'.attributes) (sel : Selector) :
    does_rule_apply e sel = does_rule_apply e' sel := by
  cases sel with
  | simple s => exact does_simple_selector_apply_congr e e' hn ha s
  | compound ss =>
    simp only [does_rule_apply]
    induction ss with
    | nil => rfl
    | cons s rest ih =>
      simp [does_simple_selector_apply_congr e e' hn ha s, ih]
  | combinator l c r => rfl

theorem matchSpec_congr (e e' : StyledElement)
    (hn : e.name = e'.name) (ha : e.attributes = e'.attributes) (r : Ruleset) :
    matchSpec e r = matchSpec e' r := by
  unfold matchSpec
  congr 1
  congr 1
  apply List.filter_congr
  intro sel _
  exact does_rule_apply_congr e e' hn ha sel

theorem apply_rule_flag (e : StyledElement) (r : Ruleset)
    (hd : hasDisplayNone r.declarations = false) : (apply_rule e r).1 = false := by
  rw [apply_rule]
  cases hm : matchSpec e r <;> simp [hd]

/-! ## Claim C9 -/

/-- C9: apply_styles never removes the root: if a display:none ruleset
matches the root, apply_rule reports deletion but leaves the root
untouched (no declaration is applied to it or to any descendant), and
apply_styles discards the deletion signal, so applying that ruleset is
the identity step of the fold. -/
theorem c9_root_survives_display_none :
    ∀ (e : StyledElement) (r : Ruleset) (rest : List Ruleset),
      (matchSpec e r).isSome = true →
      hasDisplayNone r.declarations = true →
      apply_rule e r = (true, e) ∧ apply_styles e (r :: rest) = apply_styles e rest := by
  intro e r rest hm hd
  obtain ⟨spec, hspec⟩ := Option.isSome_iff_exists.1 hm
  have h1 : apply_rule e r = (true, e) := by
    rw [apply_rule, hspec]
    simp [hd]
  exact ⟨h1, by simp [apply_styles, h1]⟩

def c9Elt : StyledElement := .mk "nav" [] [] []

def c9Rule : Ruleset :=
  ⟨[.simple (.typeSel "nav")], [⟨"display", .keyword "none"⟩]⟩

/-- Witness for C9 at a concrete nav element matched by a display:none
ruleset. -/
theorem c9_root_survives_display_none_witness :
    apply_rule c9Elt c9Rule = (true, c9Elt)
    ∧ apply_styles c9Elt [c9Rule] = apply_styles c9Elt [] :=
  c9_root_survives_display_none c9Elt c9Rule [] (by rfl) (by rfl)

/-! ## Claim C3 -/

mutual

/-- The pruning pass described by the spec for a display:none ruleset:
every matched element is removed together with its whole subtree, and no
style map anywhere is modified. -/
def pruneElt (r : Ruleset) (e : StyledElement) : StyledElement :=
  match e with
  | .mk n a cs st => .mk n a (pruneContents r cs) st

/-- Subtree pruning over a content list: matched element children are
dropped, the rest are pruned recursively, text children are kept. -/
def pruneContents (r : Ruleset) : List StyledContent → List StyledContent
  | [] => []
  | .element el :: rest =>
      if (matchSpec el r).isSome then pruneContents r rest
      else .element (pruneElt r el) :: pruneContents r rest
  | .text s st :: rest => .text s st :: pruneContents r rest

end

mutual

theorem apply_rule_dn (r : Ruleset) (hd : hasDisplayNone r.declarations = true)
    (e : StyledElement) (hm : matchSpec e r = none) :
    apply_rule e r = (false, pruneElt r e) := by
  rw [apply_rule, hm]
  match e with
  | .mk n a cs st =>
    simp only [applyRuleChildren, pruneElt, Prod.mk.injEq, true_and]
    rw [applyRuleContents_dn r hd cs]
termination_by eltSize e
decreasing_by all_goals (try simp only [eltSize, contentsSize]); omega

theorem applyRuleContents_dn (r : Ruleset) (hd : hasDisplayNone r.declarations = true)
    (cs : List StyledContent) :
    applyRuleContents cs r = pruneContents r cs := by
  match cs with
  | [] => rw [applyRuleContents]; rfl
  | .element el :: rest =>
    rw [applyRuleContents]
    cases hm : matchSpec el r with
    | some spec =>
      have h1 : apply_rule el r = (true, el) := by
        rw [apply_rule, hm]
        simp [hd]
      simp only [h1, pruneContents, hm, Option.isSome_some, if_true]
      exact applyRuleContents_dn r hd rest
    | none =>
      have h1 := apply_rule_dn r hd el hm
      simp only [h1, pruneContents, hm, Option.isSome_none, Bool.false_eq_true, if_false]
      rw [applyRuleContents_dn r hd rest]
  | .text s st :: rest =>
    rw [applyRuleContents]
    simp only [pruneContents]
    rw [applyRuleContents_dn r hd rest]
termination_by contentsSize cs
decreasing_by all_goals (try simp only [eltSize, contentsSize]); omega

end

def c3NavChild : StyledContent := .element (.mk "a" [] [] [])

def c3Body : StyledElement :=
  .mk "body" []
    [.element (.mk "nav" [] [c3NavChild] []), .element (.mk "main" [] [] [])] []

def c3NavRule : Ruleset :=
  ⟨[.simple (.typeSel "nav")], [⟨"display", .keyword "none"⟩]⟩

/-- C3: applying a ruleset whose declarations include display:none
removes every matched element with its entire subtree from the parent
contents and applies none of the declarations anywhere: a matched node
reports itself for deletion untouched, an unmatched node only has its
matched descendants pruned (style maps unchanged down the whole tree),
and on body [nav [a], main] the nav rule leaves body with main only. -/
theorem c3_display_none_prunes :
    (∀ (e : StyledElement) (r : Ruleset) (spec : Specificity),
        hasDisplayNone r.declarations = true →
        matchSpec e r = some spec →
        apply_rule e r = (true, e))
    ∧ (∀ (e : StyledElement) (r : Ruleset),
        hasDisplayNone r.declarations = true →
        matchSpec e r = none →
        apply_rule e r = (false, pruneElt r e))
    ∧ apply_styles c3Body [c3NavRule]
        = .mk "body" [] [.element (.mk "main" [] [] [])] [] := by
  refine ⟨?_, ?_, ?_⟩
  · intro e r spec hd hm
    rw [apply_rule, hm]
    simp [hd]
  · intro e r hd hm
    exact apply_rule_dn r hd e hm
  · simp [apply_styles, apply_rule, c3Body, c3NavRule, c3NavChild, matchSpec, does_rule_apply,
      does_simple_selector_apply, id_is, has_class, attrsGet, maxSpec, selectorSpec,
      simpleSelectorSpec, hasDisplayNone, valueBeq, apply_rule_unconditionally, aruContents,
      smInsert, smGetPair, smPut, smGet, applyRuleChildren, applyRuleContents,
      StyledElement.styles, StyledElement.name, StyledElement.attributes, Specificity.weight]

/-- Witness for C3: the two pruning clauses applied at the concrete nav
and body elements. -/
theorem c3_display_none_prunes_witness :
    apply_rule (.mk "nav" [] [c3NavChild] []) c3NavRule = (true, .mk "nav" [] [c3NavChild] [])
    ∧ apply_rule c3Body c3NavRule = (false, pruneElt c3NavRule c3Body) :=
  ⟨c3_display_none_prunes.1 (.mk "nav" [] [c3NavChild] []) c3NavRule ⟨0, 0, 0, 1⟩
      (by rfl) (by rfl),
   c3_display_none_prunes.2.1 c3Body c3NavRule (by rfl) (by rfl)⟩

/-! ## Claim C4 -/

/-- The style-map effect of applying a declaration list at one
specificity: fold of StyledElement::insert in declaration order. -/
def foldInsertDecls (m : StyleMap) (ds : List Declaration) (spec : Specificity) : StyleMap :=
  ds.foldl (fun m d => smInsert m d.name d.value spec) m

mutual

/-- Insertion of a fixed declaration list, at a fixed specificity, into
an element and every descendant: the shape the spec ascribes to
inheritance propagation. -/
def inheritAllElt (ds : List Declaration) (spec : Specificity) (e : StyledElement) :
    StyledElement :=
  match e with
  | .mk n a cs st => .mk n a (inheritAllContents ds spec cs) (foldInsertDecls st ds spec)

/-- Descendant half of inheritAllElt. -/
def inheritAllContents (ds : List Declaration) (spec : Specificity) :
    List StyledContent → List StyledContent
  | [] => []
  | .element el :: rest => .element (inheritAllElt ds spec el) :: inheritAllContents ds spec rest
  | .text s st :: rest => .text s st :: inheritAllContents ds spec rest

end

mutual

theorem aru_true_eq_inheritAll (ds : List Declaration) (spec : Specificity)
    (e : StyledElement) :
    apply_rule_unconditionally e ds spec true = inheritAllElt ds spec e := by
  match e with
  | .mk n a cs st =>
    simp only [apply_rule_unconditionally, inheritAllElt, if_true, foldInsertDecls]
    rw [aruContents_eq_inheritAll ds spec cs]

theorem aruContents_eq_inheritAll (ds : List Declaration) (spec : Specificity)
    (cs : List StyledContent) :
    aruContents cs ds spec = inheritAllContents ds spec cs := by
  match cs with
  | [] => rfl
  | .element el :: rest =>
    simp only [aruContents, inheritAllContents]
    rw [aru_true_eq_inheritAll ds spec el, aruContents_eq_inheritAll ds spec rest]
  | .text s st :: rest =>
    simp only [aruContents, inheritAllContents]
    rw [aruContents_eq_inheritAll ds spec rest]

end

theorem aru_false_char (e : StyledElement) (ds : List Declaration) (spec : Specificity) :
    apply_rule_unconditionally e ds spec false
      = .mk e.name e.attributes
          (inheritAllContents (ds.filter (fun d => INHERITED.contains d.name)) spec e.contents)
          (foldInsertDecls e.styles ds spec) := by
  match e with
  | .mk n a cs st =>
    simp only [apply_rule_unconditionally, Bool.false_eq_true, if_false, foldInsertDecls,
      StyledElement.name, StyledElement.attributes, StyledElement.contents, StyledElement.styles]
    rw [aruContents_eq_inheritAll]

theorem inheritAllElt_name (ds : List Declaration) (spec : Specificity) (e : StyledElement) :
    (inheritAllElt ds spec e).name = e.name := by
  match e with
  | .mk n a cs st => rfl

theorem inheritAllElt_attributes (ds : List Declaration) (spec : Specificity)
    (e : StyledElement) : (inheritAllElt ds spec e).attributes = e.attributes := by
  match e with
  | .mk n a cs st => rfl

theorem inheritAllElt_styles (ds : List Declaration) (spec : Specificity) (e : StyledElement) :
    (inheritAllElt ds spec e).styles = foldInsertDecls e.styles ds spec := by
  match e with
  | .mk n a cs st => rfl

/-- When the ruleset has no display:none declaration, the child pass
keeps every child and rewrites element children by apply_rule. -/
theorem applyRuleContents_nodn (r : Ruleset) (hd : hasDisplayNone r.declarations = false)
    (cs : List StyledContent) :
    applyRuleContents cs r
      = cs.map (fun c =>
          match c with
          | .element el => .element (apply_rule el r).2
          | .text s st => .text s st) := by
  induction cs with
  | nil => rw [applyRuleContents]; rfl
  | cons c rest ih =>
    match c with
    | .element el =>
      rw [applyRuleContents]
      have hf := apply_rule_flag el r hd
      cases hae : apply_rule el r with
      | mk flag el2 =>
        rw [hae] at hf
        simp only at hf
        subst hf
        simp only [List.map_cons, hae, ih]
    | .text s st =>
      rw [applyRuleContents]
      simp only [List.map_cons, ih]

theorem inheritAllContents_eq_map (ds : List Declaration) (spec : Specificity)
    (cs : List StyledContent) :
    inheritAllContents ds spec cs
      = cs.map (fun c =>
          match c with
          | .element el => .element (inheritAllElt ds spec el)
          | .text s st => .text s st) := by
  induction cs with
  | nil => rfl
  | cons c rest ih =>
    match c with
    | .element el => simp only [inheritAllContents, List.map_cons, ih]
    | .text s st => simp only [inheritAllContents, List.map_cons, ih]

theorem styledElement_contents_mk (n : String) (a : DOMAttributes)
    (cs : List StyledContent) (st : StyleMap) :
    (StyledElement.mk n a cs st).contents = cs := rfl

theorem apply_rule_none (e : StyledElement) (r : Ruleset) (hm : matchSpec e r = none) :
    apply_rule e r = (false, applyRuleChildren e r) := by
  rw [apply_rule, hm]

/-! ## Claim C10 -/

/-- Conversion of a single DOM content node (From(DOMContent) in
src/style.rs): elements convert recursively, text becomes a styled
string with an empty style map. -/
def styledOfDOMContent : DOMContent → StyledContent
  | .element e => .element (styledOfDOMElement e)
  | .text s => .text s []

mutual

/-- Every style map in the element and its subtree is empty. -/
def eltStylesEmpty : StyledElement → Bool
  | .mk _ _ cs st => st.isEmpty && contentsStylesEmpty cs

/-- Every style map in the content list is empty. -/
def contentsStylesEmpty : List StyledContent → Bool
  | [] => true
  | .element e :: rest => eltStylesEmpty e && contentsStylesEmpty rest
  | .text _ st :: rest => st.isEmpty && contentsStylesEmpty rest

end

mutual

theorem styledOfDOMElement_empty (d : DOMElement) :
    eltStylesEmpty (styledOfDOMElement d) = true := by
  match d with
  | .mk n a cs =>
    simp only [styledOfDOMElement, eltStylesEmpty, List.isEmpty_nil, Bool.true_and]
    exact styledOfDOMContents_empty cs

theorem styledOfDOMContents_empty (cs : List DOMContent) :
    contentsStylesEmpty (styledOfDOMContents cs) = true := by
  match cs with
  | [] => rfl
  | .element e :: rest =>
    rw [styledOfDOMContents]
    by_cases he : element_is_excluded e
    · simp only [he, if_true]
      exact styledOfDOMContents_empty rest
    · simp only [he, Bool.false_eq_true, if_false, contentsStylesEmpty]
      rw [styledOfDOMElement_empty e, styledOfDOMContents_empty rest]
      rfl
  | .text s :: rest =>
    rw [styledOfDOMContents]
    simp only [contentsStylesEmpty, List.isEmpty_nil, Bool.true_and]
    exact styledOfDOMContents_empty rest

end

/-- C10: converting a DOM tree to a styled tree drops exactly the child
elements whose tag is in the EXCLUDED list (with their entire subtrees),
keeps all other children in document order, preserves name and
attributes, and gives every surviving node an empty initial style
map. -/
theorem c10_dom_conversion :
    (∀ cs : List DOMContent,
        styledOfDOMContents cs
          = (cs.filter (fun c =>
                match c with
                | .element e => !element_is_excluded e
                | .text _ => true)).map styledOfDOMContent)
    ∧ (∀ d : DOMElement,
        (styledOfDOMElement d).name = d.name
        ∧ (styledOfDOMElement d).attributes = d.attributes
        ∧ eltStylesEmpty (styledOfDOMElement d) = true) := by
  constructor
  · intro cs
    induction cs with
    | nil => rfl
    | cons c rest ih =>
      match c with
      | .element e =>
        rw [styledOfDOMContents]
        by_cases he : element_is_excluded e
        · simp [he, ih]
        · simp [he, ih, styledOfDOMContent]
      | .text s =>
        rw [styledOfDOMContents]
        simp [ih, styledOfDOMContent]
  · intro d
    match d with
    | .mk n a cs =>
      exact ⟨rfl, rfl, styledOfDOMElement_empty (.mk n a cs)⟩

/-! ## Layout geometry (src/layout/mod.rs) -/

/-- Rect from src/layout/mod.rs (f64 fields modelled as rationals). -/
structure Rect where
  x : ℚ
  y : ℚ
  width : ℚ
  height : ℚ
deriving DecidableEq, Repr

/-- EdgeSizes from src/layout/mod.rs. -/
structure EdgeSizes where
  left : ℚ
  right : ℚ
  top : ℚ
  bottom : ℚ
deriving DecidableEq, Repr

/-- Dimensions from src/layout/mod.rs. -/
structure Dimensions where
  content : Rect
  margin : EdgeSizes
  border : EdgeSizes
  padding : EdgeSizes
deriving DecidableEq, Repr

/-- Rect::expanded_by. -/
def Rect.expanded_by (r : Rect) (edge : EdgeSizes) : Rect :=
  ⟨r.x - edge.left, r.y - edge.top,
   r.width + edge.left + edge.right, r.height + edge.top + edge.bottom⟩

/-- Dimensions::padding_box. -/
def Dimensions.padding_box (d : Dimensions) : Rect :=
  d.content.expanded_by d.padding

/-- Dimensions::border_box. -/
def Dimensions.border_box (d : Dimensions) : Rect :=
  d.padding_box.expanded_by d.border

/-- Dimensions::margin_box. -/
def Dimensions.margin_box (d : Dimensions) : Rect :=
  d.border_box.expanded_by d.margin

/-- BoxType from src/layout/mod.rs. -/
inductive BoxType where
  | block
  | inlineB
  | anonymous
deriving DecidableEq, Repr

/-- BoxContentType from src/layout/mod.rs. -/
inductive BoxContentType where
  | normal
  | image
  | text (s : String)
deriving Repr

/-- BorderSide from src/layout/properties.rs. -/
structure BorderSide where
  width : Value
  style : Value
  color : Value
deriving Repr

/-- The Default instance for BorderSide: zero width, zero style
placeholder, black color. -/
def BorderSide.defaultSide : BorderSide :=
  ⟨.number 0, .number 0, .color ⟨0, 0, 0, 255⟩⟩

/-- Border from src/layout/properties.rs. -/
structure Border where
  left : BorderSide
  right : BorderSide
  top : BorderSide
  bottom : BorderSide
deriving Repr

/-- The Default instance for Border. -/
def Border.defaultBorder : Border :=
  ⟨BorderSide.defaultSide, BorderSide.defaultSide, BorderSide.defaultSide, BorderSide.defaultSide⟩

/-! ## Edge property resolution (src/layout/properties.rs) -/

/-- to_padding_sizes from src/layout/properties.rs: shorthand expansion
of a padding value to (top, right, bottom, left). -/
def to_padding_sizes (padding : Value) : Option (Value × Value × Value × Value) :=
  match padding with
  | .number _ => some (padding, padding, padding, padding)
  | .length _ _ => some (padding, padding, padding, padding)
  | .keyword kw =>
      if kw == "auto" then some (padding, padding, padding, padding) else none
  | .multiple values =>
      if !mvIsSpaceSeparated values then none
      else
        match values with
        | [] => none
        | [a] => some (a.2, a.2, a.2, a.2)
        | [a, b] => some (a.2, b.2, a.2, b.2)
        | [a, b, c] => some (a.2, b.2, c.2, b.2)
        | [a, b, c, d] => some (a.2, b.2, c.2, d.2)
        | _ => none
  | _ => none

/-- to_margin_sizes from src/layout/properties.rs (same logic as
padding). -/
def to_margin_sizes (margin : Value) : Option (Value × Value × Value × Value) :=
  to_padding_sizes margin

/-- to_border_sides from src/layout/properties.rs (same logic as
padding). -/
def to_border_sides (border : Value) : Option (Value × Value × Value × Value) :=
  to_padding_sizes border

/-- Padding from src/layout/properties.rs (top, right, bottom, left). -/
structure Padding where
  top : Value
  right : Value
  bottom : Value
  left : Value
deriving Repr

/-- Margin from src/layout/properties.rs. -/
structure Margin where
  top : Value
  right : Value
  bottom : Value
  left : Value
deriving Repr

/-- get_padding from src/layout/properties.rs: expand the padding
shorthand (default 0 on every side), then apply the per-side
overrides. -/
def get_padding (style : StyleMap) : Padding :=
  let base := ((smGet style "padding").bind to_padding_sizes).getD
    (.number 0, .number 0, .number 0, .number 0)
  let p : Padding := ⟨base.1, base.2.1, base.2.2.1, base.2.2.2⟩
  let p := match smGet style "padding-top" with
    | some pt => { p with top := pt }
    | none => p
  let p := match smGet style "padding-right" with
    | some pr => { p with right := pr }
    | none => p
  let p := match smGet style "padding-bottom" with
    | some pb => { p with bottom := pb }
    | none => p
  match smGet style "padding-left" with
  | some pl => { p with left := pl }
  | none => p

/-- get_margins from src/layout/properties.rs. -/
def get_margins (style : StyleMap) : Margin :=
  let base := ((smGet style "margin").bind to_margin_sizes).getD
    (.number 0, .number 0, .number 0, .number 0)
  let m : Margin := ⟨base.1, base.2.1, base.2.2.1, base.2.2.2⟩
  let m := match smGet style "margin-top" with
    | some mt => { m with top := mt }
    | none => m
  let m := match smGet style "margin-right" with
    | some mr => { m with right := mr }
    | none => m
  let m := match smGet style "margin-bottom" with
    | some mb => { m with bottom := mb }
    | none => m
  match smGet style "margin-left" with
  | some ml => { m with left := ml }
  | none => m

/-- The first run of values satisfying p, starting at the first
satisfying position: Iterator::position followed by take_while in
process_border. -/
def firstRun (p : Value → Bool) : List Value → Option (List Value)
  | [] => none
  | v :: rest => if p v then some (v :: rest.takeWhile p) else firstRun p rest

/-- process_border from src/layout/properties.rs: extract the width,
style and color runs from a border shorthand. -/
def process_border (val : Value) : Option Value × Option Value × Option Value :=
  match val with
  | .multiple mv =>
      if !mvIsSpaceSeparated mv then (none, none, none)
      else
        let values := mv.map (fun x => x.2)
        ((firstRun is_width values).map (fun run => .multiple (mvNewSpaceSeparated run)),
         (firstRun is_border_style values).map (fun run => .multiple (mvNewSpaceSeparated run)),
         (firstRun is_color values).map (fun run => .multiple (mvNewSpaceSeparated run)))
  | _ => (none, none, none)

/-- to_border_side from src/layout/properties.rs. -/
def to_border_side (val : Value) : BorderSide :=
  match val with
  | .multiple mv =>
      if !mvIsSpaceSeparated mv then BorderSide.defaultSide
      else
        match mv.map (fun x => x.2) with
        | [] => BorderSide.defaultSide
        | [w] => { BorderSide.defaultSide with width := w }
        | [w, s] => { BorderSide.defaultSide with width := w, style := s }
        | w :: s :: c :: _ => ⟨w, s, c⟩
  | _ => { BorderSide.defaultSide with width := val }

/-- get_border from src/layout/properties.rs: expand the border
shorthand into per-side width/style/color, then apply whole-side
overrides from border-left .. border-bottom. -/
def get_border (style : StyleMap) : Border :=
  let border := Border.defaultBorder
  let border :=
    match smGet style "border" with
    | some val =>
        let wsc := process_border val
        let border :=
          match wsc.1 with
          | some w =>
              match to_border_sides w with
              | some (t, r, b, l) =>
                  { border with
                    left := { border.left with width := l },
                    right := { border.right with width := r },
                    bottom := { border.bottom with width := b },
                    top := { border.top with width := t } }
              | none => border
          | none => border
        let border :=
          match wsc.2.1 with
          | some s =>
              match to_border_sides s with
              | some (t, r, b, l) =>
                  { border with
                    left := { border.left with style := l },
                    right := { border.right with style := r },
                    bottom := { border.bottom with style := b },
                    top := { border.top with style := t } }
              | none => border
          | none => border
        match wsc.2.2 with
        | some c =>
            match to_border_sides c with
            | some (t, r, b, l) =>
                { border with
                  left := { border.left with color := l },
                  right := { border.right with color := r },
                  bottom := { border.bottom with color := b },
                  top := { border.top with color := t } }
            | none => border
        | none => border
    | none => border
  let border :=
    match smGet style "border-left" with
    | some val => { border with left := to_border_side val }
    | none => border
  let border :=
    match smGet style "border-right" with
    | some val => { border with right := to_border_side val }
    | none => border
  let border :=
    match smGet style "border-top" with
    | some val => { border with top := to_border_side val }
    | none => border
  match smGet style "border-bottom" with
  | some val => { border with bottom := to_border_side val }
  | none => border

/-! ## Block width (src/layout/mod.rs, calculate_block_width) -/

/-- The f64-to-isize cast used in calculate_block_width: truncation
toward zero. -/
def truncQ (q : ℚ) : ℤ := Int.tdiv q.num q.den

/-- The horizontal values resolved by calculate_block_width, together
with the Border stored on the box. -/
structure BlockWidths where
  width : ℚ
  margin_left : ℚ
  margin_right : ℚ
  border_left : ℚ
  border_right : ℚ
  padding_left : ℚ
  padding_right : ℚ
  border : Border
deriving Repr

/-- LayoutBox::calculate_block_width from src/layout/mod.rs for a
non-text box, as a function of the style map, the font size and the
containing content width.  Width defaults to keyword auto; margins,
borders and paddings resolve through get_margins / get_border /
get_padding.  total_width sums the seven values with unresolvable ones
as 0.  If width is not auto and the total exceeds the container, auto
margins are forced to 0.  underflow is the difference of the isize
truncations of the container width and the total.  The five cases then
resolve width and the two margins; the final conversions mirror the
unwrap calls of the source, so the result is none exactly where the
source panics. -/
def calculate_block_width (style : StyleMap) (font_size : ℚ) (container_width : ℚ) :
    Option BlockWidths :=
  let auto := Value.keyword "auto"
  let width0 := (smGet style "width").getD auto
  let margins := get_margins style
  let margin_left0 := margins.left
  let margin_right0 := margins.right
  let border := get_border style
  let border_left := border.left.width
  let border_right := border.right.width
  let padding := get_padding style
  let padding_left := padding.left
  let padding_right := padding.right
  let total_width :=
    (([margin_left0, margin_right0, border_left, border_right,
       padding_left, padding_right, width0]).map
      (fun v => (try_to_px v font_size).getD 0)).sum
  let clamp := valueBeq width0 auto = false ∧ container_width < total_width
  let margin_left1 :=
    if clamp ∧ valueBeq margin_left0 auto = true then Value.number 0 else margin_left0
  let margin_right1 :=
    if clamp ∧ valueBeq margin_right0 auto = true then Value.number 0 else margin_right0
  let underflow : ℤ := truncQ container_width - truncQ total_width
  let underflow_val := Value.number (underflow : ℚ)
  let adjusted_margin_right :=
    Value.number ((truncQ ((try_to_px margin_right1 font_size).getD 0) + underflow : ℤ) : ℚ)
  let half_underflow := Value.number ((underflow : ℚ) / 2)
  let resolved :=
    match valueBeq width0 auto, valueBeq margin_left1 auto, valueBeq margin_right1 auto with
    | false, false, false => (width0, margin_left1, adjusted_margin_right)
    | false, false, true => (width0, margin_left1, underflow_val)
    | false, true, false => (width0, underflow_val, margin_right1)
    | true, _, _ =>
        if 0 ≤ underflow then (underflow_val, margin_left1, margin_right1)
        else (Value.number 0, margin_left1, adjusted_margin_right)
    | false, true, true => (width0, half_underflow, half_underflow)
  match try_to_px resolved.1 font_size, try_to_px padding_left font_size,
        try_to_px padding_right font_size, try_to_px border_left font_size,
        try_to_px border_right font_size, try_to_px resolved.2.1 font_size,
        try_to_px resolved.2.2 font_size with
  | some w, some pl, some pr, some bl, some br, some ml, some mr =>
      some ⟨w, ml, mr, bl, br, pl, pr, border⟩
  | _, _, _, _, _, _, _ => none

/-! ## The layout pass (src/layout/mod.rs) -/

/-- LayoutBox from src/layout/mod.rs. -/
inductive LayoutBox where
  | mk (dimensions : Dimensions) (box_type : BoxType) (contents : List LayoutBox)
       (style : StyleMap) (box_content_type : BoxContentType) (font_size : ℚ)
       (border : Option Border)

def LayoutBox.dimensions : LayoutBox → Dimensions
  | .mk d _ _ _ _ _ _ => d

def LayoutBox.box_type : LayoutBox → BoxType
  | .mk _ bt _ _ _ _ _ => bt

def LayoutBox.contents : LayoutBox → List LayoutBox
  | .mk _ _ cs _ _ _ _ => cs

def LayoutBox.style : LayoutBox → StyleMap
  | .mk _ _ _ st _ _ _ => st

def LayoutBox.box_content_type : LayoutBox → BoxContentType
  | .mk _ _ _ _ bct _ _ => bct

def LayoutBox.font_size : LayoutBox → ℚ
  | .mk _ _ _ _ _ fs _ => fs

def LayoutBox.border : LayoutBox → Option Border
  | .mk _ _ _ _ _ _ bd => bd

/-- Replace the font_size field (the assignment loop at the end of
LayoutBox::layout). -/
def setFontSize : LayoutBox → ℚ → LayoutBox
  | .mk d bt cs st bct _ bd, fs => .mk d bt cs st bct fs bd

/-- calculate_font_size from src/layout/mod.rs: resolve the font-size
property against the parent size; Number is literal, Percentage and em
lengths scale the parent size, px lengths are literal, everything else
(keywords, other units, no declaration) inherits the parent size. -/
def calculate_font_size (s : StyleMap) (parent_size : ℚ) : ℚ :=
  (match smGet s "font-size" with
   | some (.keyword _) => none
   | some (.number n) => some n
   | some (.percentage n) => some (n * parent_size)
   | some (.length n u) =>
       match u with
       | .px => some n
       | .em => some (n * parent_size)
       | _ => none
   | _ => none).getD parent_size

/-- Write the resolved horizontal values of calculate_block_width into
the dimensions (the final assignments of the source). -/
def applyBlockWidths (dims : Dimensions) (bw : BlockWidths) : Dimensions :=
  { dims with
    content := { dims.content with width := bw.width },
    padding := { dims.padding with left := bw.padding_left, right := bw.padding_right },
    border := { dims.border with left := bw.border_left, right := bw.border_right },
    margin := { dims.margin with left := bw.margin_left, right := bw.margin_right } }

/-- LayoutBox::calculate_text_block_width from src/layout/mod.rs.  The
external rasterizer is abstracted by the measure parameter, which takes
the text, the resolved font size and the max width (the border box width
of the container) and returns the maximal glyph extent and the layout
height.  The source adds 2.0 to the extent for the content width, zeroes
the horizontal paddings and borders and the left margin, and stores the
height. -/
def calculate_text_block_width (measure : String → ℚ → ℚ → ℚ × ℚ)
    (style : StyleMap) (font_size : ℚ) (container : Dimensions) (s : String)
    (dims : Dimensions) : Dimensions :=
  let fsize := ((smGet style "font-size").bind (fun v => try_to_px v font_size)).getD font_size
  let m := measure s fsize container.border_box.width
  { dims with
    padding := { dims.padding with left := 0, right := 0 },
    border := { dims.border with left := 0, right := 0 },
    margin := { dims.margin with left := 0 },
    content := { dims.content with width := m.1 + 2, height := m.2 } }

/-- LayoutBox::calculate_block_position from src/layout/mod.rs: resolve
the vertical margins, borders and paddings (unwrap panics modelled as
none) and position the content rect at the container x plus the left
edges, and below the content laid out so far (container height plus
container y) plus the top edges. -/
def calculate_block_position (style : StyleMap) (font_size : ℚ)
    (containing_block : Dimensions) (dims : Dimensions) : Option Dimensions :=
  let margins := get_margins style
  match try_to_px margins.top font_size, try_to_px margins.bottom font_size,
      try_to_px (get_border style).top.width font_size,
      try_to_px (get_border style).bottom.width font_size,
      try_to_px (get_padding style).top font_size,
      try_to_px (get_padding style).bottom font_size with
  | some mt, some mb, some bt, some bb, some pt, some pb =>
      some
        { dims with
          margin := { dims.margin with top := mt, bottom := mb },
          border := { dims.border with top := bt, bottom := bb },
          padding := { dims.padding with top := pt, bottom := pb },
          content :=
            { dims.content with
              x := containing_block.content.x + dims.margin.left + dims.border.left
                    + dims.padding.left,
              y := containing_block.content.height + containing_block.content.y + mt + bt
                    + pt } }
  | _, _, _, _, _, _ => none

/-- LayoutBox::calculate_block_height from src/layout/mod.rs: if the
height property is present, the content height becomes its pixel value
with unresolvable values defaulting to 0; otherwise the dimensions are
unchanged. -/
def calculate_block_height (style : StyleMap) (font_size : ℚ) (dims : Dimensions) :
    Dimensions :=
  match (smGet style "height").map (fun v => (try_to_px v font_size).getD 0) with
  | some n => { dims with content := { dims.content with height := n } }
  | none => dims

mutual

/-- LayoutBox::layout together with LayoutBox::layout_block from
src/layout/mod.rs: block boxes go through the width, position, children
and height passes and then each child font_size is recomputed from the
child style and this font_size; other box types hit the todo panic,
modelled as none. -/
def layout (measure : String → ℚ → ℚ → ℚ × ℚ) (b : LayoutBox) (container : Dimensions) :
    Option LayoutBox :=
  match b with
  | .mk dims btype contents style bct fs bd =>
    match btype with
    | .block =>
      let step1 : Option (Dimensions × Option Border) :=
        match bct with
        | .text s => some (calculate_text_block_width measure style fs container s dims, bd)
        | _ =>
            (calculate_block_width style fs container.content.width).map
              (fun bw => (applyBlockWidths dims bw, some bw.border))
      match step1 with
      | none => none
      | some (dims1, bd1) =>
        match calculate_block_position style fs container dims1 with
        | none => none
        | some dims2 =>
          match layout_children measure contents dims2 with
          | none => none
          | some (cs, dims3) =>
            let dims4 := calculate_block_height style fs dims3
            some (.mk dims4 btype
              (cs.map (fun c => setFontSize c (calculate_font_size c.style fs)))
              style bct fs bd1)
    | _ => none

/-- LayoutBox::layout_block_children from src/layout/mod.rs: each child
is laid out against the current dimensions, whose content height then
grows by the child margin box height. -/
def layout_children (measure : String → ℚ → ℚ → ℚ × ℚ) :
    List LayoutBox → Dimensions → Option (List LayoutBox × Dimensions)
  | [], dim => some ([], dim)
  | c :: cs, dim =>
    match layout measure c dim with
    | none => none
    | some c2 =>
      let dim2 :=
        { dim with
          content := { dim.content with
            height := dim.content.height + (c2.dimensions.margin_box).height } }
      match layout_children measure cs dim2 with
      | none => none
      | some (cs2, dim3) => some (c2 :: cs2, dim3)

end

/-! ## Claim C2 -/

/-- Width resolution as the amended claim words it: same value
extraction, defaults and auto-margin clamping as the source; underflow
computed from the truncations (toward zero) of the container width and
of the total; then the five cases in the order the claim lists them,
with the margin-right adjustment adding underflow to the truncated
margin-right; final pixel conversions fail (none) exactly where the
source unwraps panic. -/
def spec_block_width (style : StyleMap) (font_size : ℚ) (container_width : ℚ) :
    Option BlockWidths :=
  let auto := Value.keyword "auto"
  let width0 := (smGet style "width").getD auto
  let margins := get_margins style
  let border := get_border style
  let padding := get_padding style
  let px := fun v => (try_to_px v font_size).getD 0
  let total :=
    px margins.left + (px margins.right + (px border.left.width + (px border.right.width
      + (px padding.left + (px padding.right + (px width0 + 0))))))
  let overconstrained := valueBeq width0 auto = false ∧ container_width < total
  let ml1 := if overconstrained ∧ valueBeq margins.left auto = true then Value.number 0
             else margins.left
  let mr1 := if overconstrained ∧ valueBeq margins.right auto = true then Value.number 0
             else margins.right
  let underflow : ℤ := truncQ container_width - truncQ total
  let resolved :=
    if valueBeq width0 auto then
      if 0 ≤ underflow then (Value.number (underflow : ℚ), ml1, mr1)
      else (Value.number 0, ml1,
            Value.number ((truncQ (px mr1) + underflow : ℤ) : ℚ))
    else if valueBeq ml1 auto = false ∧ valueBeq mr1 auto = false then
      (width0, ml1, Value.number ((truncQ (px mr1) + underflow : ℤ) : ℚ))
    else if valueBeq ml1 auto = false ∧ valueBeq mr1 auto = true then
      (width0, ml1, Value.number (underflow : ℚ))
    else if valueBeq ml1 auto = true ∧ valueBeq mr1 auto = false then
      (width0, Value.number (underflow : ℚ), mr1)
    else
      (width0, Value.number ((underflow : ℚ) / 2), Value.number ((underflow : ℚ) / 2))
  match try_to_px resolved.1 font_size, try_to_px padding.left font_size,
        try_to_px padding.right font_size, try_to_px border.left.width font_size,
        try_to_px border.right.width font_size, try_to_px resolved.2.1 font_size,
        try_to_px resolved.2.2 font_size with
  | some w, some pl, some pr, some bl, some br, some ml, some mr =>
      some ⟨w, ml, mr, bl, br, pl, pr, border⟩
  | _, _, _, _, _, _, _ => none

/-- Counterexample for C2 as stated: with container width 20 and a
declared width of 10.5 (margins, borders, paddings defaulted to 0), the
source resolves margin-right to trunc(20) - trunc(10.5) = 10, whereas
the claim formula underflow = 20 - 10.5 demands 9.5. -/
theorem c2_block_width_counterexample :
    (calculate_block_width [("width", .number 10.5, ⟨0, 0, 0, 0⟩)] 16 20).map
        (fun bw => bw.margin_right) = some 10
    ∧ (20 : ℚ) - (0 + 0 + 0 + 0 + 0 + 0 + 10.5) = 9.5
    ∧ (10 : ℚ) ≠ 0 + 9.5 := by
  refine ⟨?_, by norm_num, by norm_num⟩
  simp [calculate_block_width, smGet, smGetPair, get_margins, get_border, get_padding,
    to_margin_sizes, to_padding_sizes, Border.defaultBorder, BorderSide.defaultSide,
    try_to_px, valueBeq, truncQ, List.find?]
  norm_num [Int.tdiv]

/-- C2 (amended): calculate_block_width resolves the horizontal values
exactly as the claim describes, except that underflow is the difference
of the isize truncations of the container width and of the total, the
margin-right adjustment adds underflow to the truncated margin-right,
and a finally-resolved value that is not convertible to pixels makes the
pass fail (the source panics).  In particular container width 200 with
width 300px and no declared margins yields content width 300 and
margin-right -100. -/
theorem c2_block_width_amended :
    (∀ (style : StyleMap) (font_size container_width : ℚ),
        calculate_block_width style font_size container_width
          = spec_block_width style font_size container_width)
    ∧ (calculate_block_width [("width", .length 300 .px, ⟨0, 0, 0, 0⟩)] 16 200).map
        (fun bw => (bw.width, bw.margin_right)) = some (300, -100) := by
  constructor
  · intro style font_size container_width
    unfold calculate_block_width spec_block_width
    simp only [List.map_cons, List.map_nil, List.sum_cons, List.sum_nil]
    generalize (smGet style "width").getD (Value.keyword "auto") = W
    generalize get_margins style = M
    generalize get_border style = B
    generalize get_padding style = P
    set T := (try_to_px M.left font_size).getD 0 + ((try_to_px M.right font_size).getD 0
      + ((try_to_px B.left.width font_size).getD 0 + ((try_to_px B.right.width font_size).getD 0
      + ((try_to_px P.left font_size).getD 0 + ((try_to_px P.right font_size).getD 0
      + ((try_to_px W font_size).getD 0 + 0)))))) with hT
    cases hwa : valueBeq W (Value.keyword "auto") <;>
      by_cases hc : container_width < T <;>
      cases hml : valueBeq M.left (Value.keyword "auto") <;>
      cases hmr : valueBeq M.right (Value.keyword "auto") <;>
      simp only [hwa, hc, hml, hmr, Bool.true_eq_false, Bool.false_eq_true,
        true_and, false_and, and_true, and_false, and_self, if_true, if_false,
        ite_true, ite_false, not_true, not_false_iff, iff_true, iff_false] <;>
      rfl
  · simp [calculate_block_width, smGet, smGetPair, get_margins, get_border, get_padding,
      to_margin_sizes, to_padding_sizes, Border.defaultBorder, BorderSide.defaultSide,
      try_to_px, valueBeq, truncQ, List.find?]

/-! ## Layout lemmas -/

theorem setFontSize_dimensions (c : LayoutBox) (q : ℚ) :
    (setFontSize c q).dimensions = c.dimensions := by
  match c with
  | .mk d bt cs st bct fs bd => rfl

theorem setFontSize_style (c : LayoutBox) (q : ℚ) :
    (setFontSize c q).style = c.style := by
  match c with
  | .mk d bt cs st bct fs bd => rfl

theorem setFontSize_font_size (c : LayoutBox) (q : ℚ) :
    (setFontSize c q).font_size = q := by
  match c with
  | .mk d bt cs st bct fs bd => rfl

theorem applyBlockWidths_height (d : Dimensions) (bw : BlockWidths) :
    (applyBlockWidths d bw).content.height = d.content.height := rfl

theorem calculate_block_position_height (style : StyleMap) (fs : ℚ)
    (container d d2 : Dimensions)
    (h : calculate_block_position style fs container d = some d2) :
    d2.content.height = d.content.height := by
  unfold calculate_block_position at h
  dsimp only at h
  split at h
  · injection h with h2
    rw [← h2]
  · exact Option.noConfusion h

theorem layout_children_heights (measure : String → ℚ → ℚ → ℚ × ℚ)
    (cs : List LayoutBox) (dim : Dimensions) (cs2 : List LayoutBox) (dim2 : Dimensions)
    (h : layout_children measure cs dim = some (cs2, dim2)) :
    dim2.content.height
      = dim.content.height + (cs2.map (fun c => (c.dimensions.margin_box).height)).sum := by
  induction cs generalizing dim cs2 dim2 with
  | nil =>
    rw [layout_children] at h
    simp only [Option.some.injEq, Prod.mk.injEq] at h
    obtain ⟨hcs, hdim⟩ := h
    subst hcs hdim
    simp
  | cons c rest ih =>
    rw [layout_children] at h
    cases hl : layout measure c dim with
    | none =>
      rw [hl] at h
      exact Option.noConfusion h
    | some c2 =>
      rw [hl] at h
      simp only at h
      cases hrec : layout_children measure rest
          { dim with
            content := { dim.content with
              height := dim.content.height + (c2.dimensions.margin_box).height } } with
      | none =>
        rw [hrec] at h
        exact Option.noConfusion h
      | some p =>
        obtain ⟨cs3, dim3⟩ := p
        rw [hrec] at h
        simp only [Option.some.injEq, Prod.mk.injEq] at h
        obtain ⟨hcs, hdim⟩ := h
        subst hcs hdim
        have hih := ih _ _ _ hrec
        simp only [List.map_cons, List.sum_cons] at hih ⊢
        rw [hih]
        ring

theorem layoutBox_dimensions_mk (d : Dimensions) (bt : BoxType) (cs : List LayoutBox)
    (st : StyleMap) (bct : BoxContentType) (fs : ℚ) (bd : Option Border) :
    (LayoutBox.mk d bt cs st bct fs bd).dimensions = d := rfl

theorem layoutBox_contents_mk (d : Dimensions) (bt : BoxType) (cs : List LayoutBox)
    (st : StyleMap) (bct : BoxContentType) (fs : ℚ) (bd : Option Border) :
    (LayoutBox.mk d bt cs st bct fs bd).contents = cs := rfl

theorem margin_heights_setFont (cs : List LayoutBox) (f : LayoutBox → ℚ) :
    (cs.map (fun c => setFontSize c (f c))).map (fun c => (c.dimensions.margin_box).height)
      = cs.map (fun c => (c.dimensions.margin_box).height) := by
  rw [List.map_map]
  apply List.map_congr_left
  intro c _
  simp [Function.comp, setFontSize_dimensions]

/-! ## Claim C6 -/

/-- C6 (amended): after a non-text block box with zero initial content
height is laid out, its content height is the sum of the children margin
box heights when no height property is declared; a declared height that
resolves to pixels overrides it; a declared height that does not resolve
makes the content height 0 (the unwrap_or default of the source), not
the children sum. -/
theorem c6_block_height_amended :
    ∀ (measure : String → ℚ → ℚ → ℚ × ℚ) (b : LayoutBox) (container : Dimensions),
      (∀ s, b.box_content_type ≠ BoxContentType.text s) →
      b.dimensions.content.height = 0 →
      ((smGet b.style "height" = none →
          (layout measure b container).map (fun b2 => b2.dimensions.content.height)
            = (layout measure b container).map
                (fun b2 => (b2.contents.map (fun c => (c.dimensions.margin_box).height)).sum))
       ∧ (∀ v n, smGet b.style "height" = some v → try_to_px v b.font_size = some n →
           (layout measure b container).map (fun b2 => b2.dimensions.content.height)
             = (layout measure b container).map (fun _ => n))
       ∧ (∀ v, smGet b.style "height" = some v → try_to_px v b.font_size = none →
           (layout measure b container).map (fun b2 => b2.dimensions.content.height)
             = (layout measure b container).map (fun _ => 0))) := by
  intro measure b container htext hinit
  obtain ⟨dims, btype, contents, style, bct, fs, bd⟩ := b
  have hbct : ∀ s, bct ≠ BoxContentType.text s := htext
  have hinit2 : dims.content.height = 0 := hinit
  clear htext hinit
  match btype with
  | .inlineB =>
    have hl : layout measure (LayoutBox.mk dims BoxType.inlineB contents style bct fs bd)
        container = none := by
      rw [layout]
      exact fun h => BoxType.noConfusion h
    exact ⟨fun _ => by rw [hl]; rfl, fun _ _ _ _ => by rw [hl]; rfl,
      fun _ _ _ => by rw [hl]; rfl⟩
  | .anonymous =>
    have hl : layout measure (LayoutBox.mk dims BoxType.anonymous contents style bct fs bd)
        container = none := by
      rw [layout]
      exact fun h => BoxType.noConfusion h
    exact ⟨fun _ => by rw [hl]; rfl, fun _ _ _ _ => by rw [hl]; rfl,
      fun _ _ _ => by rw [hl]; rfl⟩
  | .block =>
    rw [layout]
    case x_2 => exact fun s h => hbct s h
    cases hbw : calculate_block_width style fs container.content.width with
    | none => exact ⟨fun _ => rfl, fun _ _ _ _ => rfl, fun _ _ _ => rfl⟩
    | some bw =>
      simp only [Option.map_some']
      cases hpos : calculate_block_position style fs container (applyBlockWidths dims bw) with
      | none => exact ⟨fun _ => rfl, fun _ _ _ _ => rfl, fun _ _ _ => rfl⟩
      | some dims2 =>
        dsimp only
        cases hch : layout_children measure contents dims2 with
        | none => exact ⟨fun _ => rfl, fun _ _ _ _ => rfl, fun _ _ _ => rfl⟩
        | some p =>
          obtain ⟨cs, dims3⟩ := p
          dsimp only
          have h2 : dims2.content.height = 0 := by
            rw [calculate_block_position_height style fs container _ dims2 hpos,
              applyBlockWidths_height]
            exact hinit2
          have h3 : dims3.content.height
              = (cs.map (fun c => (c.dimensions.margin_box).height)).sum := by
            rw [layout_children_heights measure contents dims2 cs dims3 hch, h2, zero_add]
          refine ⟨?_, ?_, ?_⟩
          · intro hnone
            simp only [LayoutBox.style] at hnone
            simp only [Option.map_some', Option.map_none', calculate_block_height, hnone,
              Option.some.injEq, layoutBox_dimensions_mk, layoutBox_contents_mk]
            rw [h3, margin_heights_setFont]
          · intro v n hsome hpx
            simp only [LayoutBox.style] at hsome
            simp only [LayoutBox.font_size] at hpx
            simp only [Option.map_some', Option.map_none', calculate_block_height, hsome, hpx,
              Option.getD_some, Option.some.injEq, layoutBox_dimensions_mk]
          · intro v hsome hpx
            simp only [LayoutBox.style] at hsome
            simp only [LayoutBox.font_size] at hpx
            simp only [Option.map_some', Option.map_none', calculate_block_height, hsome, hpx,
              Option.getD_none, Option.some.injEq, layoutBox_dimensions_mk]

/-- The Default dimensions (all zeroes), as produced by Default::default
in the source. -/
def dims0 : Dimensions := ⟨⟨0, 0, 0, 0⟩, ⟨0, 0, 0, 0⟩, ⟨0, 0, 0, 0⟩, ⟨0, 0, 0, 0⟩⟩

/-- A trivial text-measurement collaborator (no text boxes are involved
in the concrete layouts below). -/
def measure0 : String → ℚ → ℚ → ℚ × ℚ := fun _ _ _ => (0, 0)

def c6Container : Dimensions := ⟨⟨0, 0, 100, 0⟩, ⟨0, 0, 0, 0⟩, ⟨0, 0, 0, 0⟩, ⟨0, 0, 0, 0⟩⟩

def c6Child : LayoutBox :=
  .mk dims0 .block [] [("height", .number 5, ⟨0, 0, 0, 0⟩)] .normal 16 none

def c6Parent : LayoutBox :=
  .mk dims0 .block [c6Child] [("height", .keyword "auto", ⟨0, 0, 0, 0⟩)] .normal 16 none

/-- Counterexample for C6 as stated: a block box declaring height auto
(declared but not resolvable to pixels) around one child of margin box
height 5; the source sets the content height to 0, not to the children
sum 5 that the claim preserves. -/
theorem c6_block_height_counterexample :
    (layout measure0 c6Parent c6Container).map (fun b2 => b2.dimensions.content.height)
      = some 0
    ∧ (layout measure0 c6Parent c6Container).map
        (fun b2 => (b2.contents.map (fun c => (c.dimensions.margin_box).height)).sum)
      = some 5
    ∧ (0 : ℚ) ≠ 5 := by
  refine ⟨?_, ?_, by norm_num⟩ <;>
    simp [layout, layout_children, c6Parent, c6Child, c6Container, dims0, measure0,
      calculate_block_width, calculate_block_position, calculate_block_height,
      calculate_font_size, setFontSize, applyBlockWidths, Dimensions.margin_box,
      Dimensions.border_box, Dimensions.padding_box, Rect.expanded_by,
      get_margins, get_border, get_padding, to_margin_sizes, to_padding_sizes,
      Border.defaultBorder, BorderSide.defaultSide, try_to_px, valueBeq, truncQ,
      smGet, smGetPair, List.find?, LayoutBox.style, LayoutBox.dimensions,
      LayoutBox.contents, LayoutBox.font_size]

def c6ParentA : LayoutBox := .mk dims0 .block [c6Child] [] .normal 16 none

def c6ParentB : LayoutBox :=
  .mk dims0 .block [c6Child] [("height", .number 7, ⟨0, 0, 0, 0⟩)] .normal 16 none

/-- Witness for C6: a parent with no height declaration keeps the
children sum, a parent declaring height 7 is overridden to 7. -/
theorem c6_block_height_amended_witness :
    ((layout measure0 c6ParentA c6Container).map (fun b2 => b2.dimensions.content.height)
        = (layout measure0 c6ParentA c6Container).map
            (fun b2 => (b2.contents.map (fun c => (c.dimensions.margin_box).height)).sum))
    ∧ ((layout measure0 c6ParentB c6Container).map (fun b2 => b2.dimensions.content.height)
        = (layout measure0 c6ParentB c6Container).map (fun _ => 7)) := by
  constructor
  · exact (c6_block_height_amended measure0 c6ParentA c6Container
      (fun s h => BoxContentType.noConfusion h) rfl).1 rfl
  · exact (c6_block_height_amended measure0 c6ParentB c6Container
      (fun s h => BoxContentType.noConfusion h) rfl).2.1 (.number 7) 7 rfl rfl

/-- Every successful layout keeps its own font_size and assigns each
child the cascade-resolved font size. -/
theorem layout_font_sizes (measure : String → ℚ → ℚ → ℚ × ℚ) (b : LayoutBox)
    (container : Dimensions) (b2 : LayoutBox)
    (h : layout measure b container = some b2) :
    b2.font_size = b.font_size
    ∧ ∀ c ∈ b2.contents, c.font_size = calculate_font_size c.style b.font_size := by
  obtain ⟨dims, btype, contents, style, bct, fs, bd⟩ := b
  rw [layout.eq_def] at h
  dsimp only at h
  split at h
  · split at h
    · exact Option.noConfusion h
    · split at h
      · exact Option.noConfusion h
      · split at h
        · exact Option.noConfusion h
        · injection h with h2
          subst h2
          refine ⟨rfl, ?_⟩
          intro c hc
          simp only [layoutBox_contents_mk] at hc
          obtain ⟨c0, hc0, rfl⟩ := List.mem_map.1 hc
          rw [setFontSize_font_size, setFontSize_style]
          rfl
  · exact Option.noConfusion h


/-! ## Claim C7 -/

def c7Child : LayoutBox :=
  .mk dims0 .block []
    [("font-size", .length 2 .em, ⟨0, 0, 0, 0⟩), ("width", .length 10 .em, ⟨0, 0, 0, 0⟩)]
    .normal 16 none

def c7Parent : LayoutBox := .mk dims0 .block [c7Child] [] .normal 16 none

/-- C7: effective font sizes: Number n gives n, Percentage n gives n
times the parent size, px lengths are literal, em lengths scale the
parent size, any other declaration or none at all inherits the parent
size; layout leaves its own font_size unchanged and sets each child
font_size to calculate_font_size of the child style against the parent
font size — and it does so only after the children have been laid out,
as the closing concrete layout shows: a child declaring font-size 2em
and width 10em under a parent with font size 16 ends with font_size 32
but content width 10 * 16 = 160, resolved with its pre-assignment font
size. -/
theorem c7_font_size_cascade :
    (∀ (s : StyleMap) (p n : ℚ), smGet s "font-size" = some (.number n) →
        calculate_font_size s p = n)
    ∧ (∀ (s : StyleMap) (p n : ℚ), smGet s "font-size" = some (.percentage n) →
        calculate_font_size s p = n * p)
    ∧ (∀ (s : StyleMap) (p n : ℚ), smGet s "font-size" = some (.length n .px) →
        calculate_font_size s p = n)
    ∧ (∀ (s : StyleMap) (p n : ℚ), smGet s "font-size" = some (.length n .em) →
        calculate_font_size s p = n * p)
    ∧ (∀ (s : StyleMap) (p : ℚ) (v : Value), smGet s "font-size" = some v →
        (∀ n, v ≠ .number n) → (∀ n, v ≠ .percentage n) →
        (∀ n, v ≠ .length n .px) → (∀ n, v ≠ .length n .em) →
        calculate_font_size s p = p)
    ∧ (∀ (s : StyleMap) (p : ℚ), smGet s "font-size" = none → calculate_font_size s p = p)
    ∧ (∀ (measure : String → ℚ → ℚ → ℚ × ℚ) (b : LayoutBox) (container : Dimensions),
        ((layout measure b container).map LayoutBox.font_size).getD b.font_size = b.font_size
        ∧ ∀ c ∈ ((layout measure b container).map LayoutBox.contents).getD [],
            c.font_size = calculate_font_size c.style b.font_size)
    ∧ (layout measure0 c7Parent c6Container).map
        (fun b2 => b2.contents.map (fun c => (c.font_size, c.dimensions.content.width)))
        = some [(32, 160)] := by
  refine ⟨?_, ?_, ?_, ?_, ?_, ?_, ?_, ?_⟩
  · intro s p n h
    rw [calculate_font_size, h]
    rfl
  · intro s p n h
    rw [calculate_font_size, h]
    rfl
  · intro s p n h
    rw [calculate_font_size, h]
    rfl
  · intro s p n h
    rw [calculate_font_size, h]
    rfl
  · intro s p v h h1 h2 h3 h4
    rw [calculate_font_size, h]
    match v with
    | .keyword k => rfl
    | .stringV k => rfl
    | .url k => rfl
    | .number n => exact absurd rfl (h1 n)
    | .percentage n => exact absurd rfl (h2 n)
    | .length n u =>
      match u with
      | .px => exact absurd rfl (h3 n)
      | .em => exact absurd rfl (h4 n)
      | .cm => rfl
      | .mm => rfl
      | .q => rfl
      | .inQ => rfl
      | .pc => rfl
      | .pt => rfl
      | .ex => rfl
      | .ch => rfl
      | .rem => rfl
      | .lh => rfl
      | .vw => rfl
      | .vh => rfl
      | .vmin => rfl
      | .vmax => rfl
    | .color c => rfl
    | .function f a => rfl
    | .multiple m => rfl
  · intro s p h
    rw [calculate_font_size, h]
    rfl
  · intro measure b container
    cases hl : layout measure b container with
    | none => exact ⟨rfl, fun c hc => absurd hc (List.not_mem_nil c)⟩
    | some b2 =>
      have hfs := layout_font_sizes measure b container b2 hl
      exact ⟨by simp [hfs.1], by simpa using hfs.2⟩
  · simp [layout, layout_children, c7Parent, c7Child, c6Container, dims0, measure0,
      calculate_block_width, calculate_block_position, calculate_block_height,
      calculate_font_size, setFontSize, applyBlockWidths, Dimensions.margin_box,
      Dimensions.border_box, Dimensions.padding_box, Rect.expanded_by,
      get_margins, get_border, get_padding, to_margin_sizes, to_padding_sizes,
      Border.defaultBorder, BorderSide.defaultSide, try_to_px, valueBeq, truncQ,
      smGet, smGetPair, List.find?, LayoutBox.style, LayoutBox.dimensions,
      LayoutBox.contents, LayoutBox.font_size]
    norm_num [Int.tdiv]

/-- Witness for C7: the resolution cases at concrete style maps and the
propagation clause at the concrete parent box. -/
theorem c7_font_size_cascade_witness :
    calculate_font_size [("font-size", .number 12, ⟨0, 0, 0, 0⟩)] 16 = 12
    ∧ calculate_font_size [("font-size", .percentage 2, ⟨0, 0, 0, 0⟩)] 16 = 2 * 16
    ∧ calculate_font_size [("font-size", .length 11 .px, ⟨0, 0, 0, 0⟩)] 16 = 11
    ∧ calculate_font_size [("font-size", .length 2 .em, ⟨0, 0, 0, 0⟩)] 16 = 2 * 16
    ∧ calculate_font_size [("font-size", .keyword "large", ⟨0, 0, 0, 0⟩)] 16 = 16
    ∧ calculate_font_size [] 16 = 16
    ∧ ((layout measure0 c7Parent c6Container).map LayoutBox.font_size).getD
        c7Parent.font_size = c7Parent.font_size := by
  refine ⟨c7_font_size_cascade.1 _ 16 12 rfl,
    c7_font_size_cascade.2.1 _ 16 2 rfl,
    c7_font_size_cascade.2.2.1 _ 16 11 rfl,
    c7_font_size_cascade.2.2.2.1 _ 16 2 rfl,
    c7_font_size_cascade.2.2.2.2.1 _ 16 (.keyword "large") rfl
      (by simp) (by simp) (by simp) (by simp),
    c7_font_size_cascade.2.2.2.2.2.1 [] 16 rfl,
    (c7_font_size_cascade.2.2.2.2.2.2.1 measure0 c7Parent c6Container).1⟩

/-! ## Claim C8: style map level -/

/-- One candidate for a style map entry: property name, value,
specificity. -/
abbrev Cand := String × Value × Specificity

/-- A sequence of candidate insertions through StyledElement::insert. -/
def applyCands (m : StyleMap) (cs : List Cand) : StyleMap :=
  cs.foldl (fun m c => smInsert m c.1 c.2.1 c.2.2) m

/-- The per-key effect of one insertion on the stored entry. -/
def insStep (cur : Option (Value × Specificity)) (vs : Value × Specificity) :
    Option (Value × Specificity) :=
  match cur with
  | none => some vs
  | some c => if c.2.weight ≤ vs.2.weight then some vs else some c

/-- The per-key effect of a sequence of insertions. -/
def winFold (i : Option (Value × Specificity)) (l : List (Value × Specificity)) :
    Option (Value × Specificity) :=
  l.foldl insStep i

theorem smGetPair_insert_self (m : StyleMap) (k : String) (v : Value) (s : Specificity) :
    smGetPair (smInsert m k v s) k = insStep (smGetPair m k) (v, s) := by
  unfold smInsert insStep
  cases h : smGetPair m k with
  | none => rw [smGetPair_put]
  | some c =>
    obtain ⟨v0, s0⟩ := c
    by_cases hw : s0.weight ≤ s.weight
    · simp only [hw, if_true]
      rw [smGetPair_put]
    · simp only [hw, Bool.false_eq_true, if_false]
      exact h

theorem smGetPair_insert_ne (m : StyleMap) (k k' : String) (v : Value) (s : Specificity)
    (hne : k' ≠ k) : smGetPair (smInsert m k v s) k' = smGetPair m k' := by
  unfold smInsert
  cases h : smGetPair m k with
  | none => rw [smGetPair_put_ne m k k' (v, s) hne]
  | some c =>
    obtain ⟨v0, s0⟩ := c
    by_cases hw : s0.weight ≤ s.weight
    · simp only [hw, if_true]
      rw [smGetPair_put_ne m k k' (v, s) hne]
    · simp only [hw, Bool.false_eq_true, if_false]

theorem smGetPair_applyCands (cs : List Cand) (m : StyleMap) (k : String) :
    smGetPair (applyCands m cs) k
      = winFold (smGetPair m k) ((cs.filter (fun c => c.1 == k)).map (fun c => c.2)) := by
  induction cs generalizing m with
  | nil => rfl
  | cons c rest ih =>
    show smGetPair (applyCands (smInsert m c.1 c.2.1 c.2.2) rest) k = _
    by_cases hk : c.1 = k
    · have hk2 : (c.1 == k) = true := by simp [hk]
      simp only [List.filter_cons, hk2, if_true, List.map_cons]
      rw [ih]
      show _ = winFold (insStep (smGetPair m k) c.2) _
      rw [← hk, smGetPair_insert_self]
    · have hk2 : (c.1 == k) = false := by simp [hk]
      simp only [List.filter_cons, hk2, Bool.false_eq_true, if_false]
      rw [ih, smGetPair_insert_ne m c.1 k c.2.1 c.2.2 (Ne.symm hk)]

theorem winFold_cons (i : Option (Value × Specificity)) (b : Value × Specificity)
    (l : List (Value × Specificity)) : winFold i (b :: l) = winFold (insStep i b) l := rfl

theorem insStep_none (a : Value × Specificity) : insStep none a = some a := rfl

theorem insStep_le {c a : Value × Specificity} (h : c.2.weight ≤ a.2.weight) :
    insStep (some c) a = some a := by
  show (if c.2.weight ≤ a.2.weight then some a else some c) = some a
  rw [if_pos h]

theorem insStep_gt {c a : Value × Specificity} (h : ¬ c.2.weight ≤ a.2.weight) :
    insStep (some c) a = some c := by
  show (if c.2.weight ≤ a.2.weight then some a else some c) = some c
  rw [if_neg h]

theorem winFold_bounds (l : List (Value × Specificity)) (x : Value × Specificity) :
    ∃ y, winFold (some x) l = some y ∧ x.2.weight ≤ y.2.weight
      ∧ ∀ a ∈ l, a.2.weight ≤ y.2.weight := by
  induction l generalizing x with
  | nil => exact ⟨x, rfl, le_refl _, fun a ha => absurd ha (List.not_mem_nil a)⟩
  | cons a l ih =>
    rw [winFold_cons]
    by_cases hw : x.2.weight ≤ a.2.weight
    · rw [insStep_le hw]
      obtain ⟨y, hy, h1, h2⟩ := ih a
      refine ⟨y, hy, le_trans hw h1, ?_⟩
      intro b hb
      rcases List.mem_cons.1 hb with hb | hb
      · rw [hb]; exact h1
      · exact h2 b hb
    · rw [insStep_gt hw]
      obtain ⟨y, hy, h1, h2⟩ := ih x
      refine ⟨y, hy, h1, ?_⟩
      intro b hb
      rcases List.mem_cons.1 hb with hb | hb
      · rw [hb]; exact le_trans (le_of_not_le hw) h1
      · exact h2 b hb

theorem winFold_weight_congr (l : List (Value × Specificity))
    (i x w : Value × Specificity)
    (hwin : winFold (some i) l = some w)
    (hval : w.2.weight = x.2.weight)
    (hle : i.2.weight ≤ x.2.weight) :
    winFold (some x) l = winFold (some i) l
    ∨ (winFold (some x) l = some x ∧ winFold (some i) l = some i) := by
  induction l generalizing i with
  | nil =>
    right
    exact ⟨rfl, rfl⟩
  | cons b l ih =>
    have hbw : b.2.weight ≤ w.2.weight := by
      rw [winFold_cons] at hwin
      by_cases hib : i.2.weight ≤ b.2.weight
      · rw [insStep_le hib] at hwin
        obtain ⟨y, hy, h1, h2⟩ := winFold_bounds l b
        rw [hwin] at hy
        injection hy with hy
        rw [← hy] at h1
        exact h1
      · rw [insStep_gt hib] at hwin
        obtain ⟨y, hy, h1, h2⟩ := winFold_bounds l i
        rw [hwin] at hy
        injection hy with hy
        rw [← hy] at h1
        exact le_trans (le_of_not_le hib) h1
    by_cases hbx : x.2.weight ≤ b.2.weight
    · have hbeq : b.2.weight = x.2.weight := le_antisymm (hval ▸ hbw) hbx
      have hibw : i.2.weight ≤ b.2.weight := le_trans hle (le_of_eq hbeq.symm)
      left
      rw [winFold_cons, insStep_le hbx, winFold_cons, insStep_le hibw]
    · rw [winFold_cons, insStep_gt hbx]
      by_cases hib : i.2.weight ≤ b.2.weight
      · rw [winFold_cons, insStep_le hib]
        rw [winFold_cons, insStep_le hib] at hwin
        have hres := ih b hwin (le_of_not_le hbx)
        rcases hres with hres | hres
        · left
          exact hres
        · exfalso
          rw [hres.2] at hwin
          injection hwin with hwin
          rw [← hwin] at hval
          exact hbx (le_of_eq hval.symm)
      · rw [winFold_cons, insStep_gt hib]
        rw [winFold_cons, insStep_gt hib] at hwin
        exact ih i hwin hle

theorem winFold_replay (l : List (Value × Specificity)) (i : Option (Value × Specificity)) :
    winFold (winFold i l) l = winFold i l := by
  induction l generalizing i with
  | nil => rfl
  | cons a l ih =>
    have hstep : ∃ j : Value × Specificity, insStep i a = some j ∧ a.2.weight ≤ j.2.weight := by
      cases i with
      | none => exact ⟨a, rfl, le_refl _⟩
      | some c =>
        by_cases hc : c.2.weight ≤ a.2.weight
        · exact ⟨a, insStep_le hc, le_refl _⟩
        · exact ⟨c, insStep_gt hc, le_of_not_le hc⟩
    obtain ⟨j, hj, haj⟩ := hstep
    obtain ⟨w, hw, hjw, hlw⟩ := winFold_bounds l j
    have hW : winFold i (a :: l) = some w := by
      rw [winFold_cons, hj]
      exact hw
    rw [hW, winFold_cons]
    by_cases hwa : w.2.weight ≤ a.2.weight
    · have haw : a.2.weight = w.2.weight := le_antisymm (le_trans haj hjw) hwa
      rw [insStep_le hwa]
      have hres := winFold_weight_congr l j a w hw haw.symm (le_trans hjw (le_of_eq haw.symm))
      rcases hres with hres | hres
      · rw [hres, hw]
      · have hwj : w = j := by
          rw [hres.2] at hw
          injection hw with hw
          exact hw.symm
        have hja : j = a := by
          cases i with
          | none =>
            rw [insStep_none] at hj
            injection hj with hj
            exact hj.symm
          | some c =>
            by_cases hc : c.2.weight ≤ a.2.weight
            · rw [insStep_le hc] at hj
              injection hj with hj
              exact hj.symm
            · rw [insStep_gt hc] at hj
              injection hj with hj
              exfalso
              rw [← hj] at hwj
              rw [hwj] at hwa
              exact hc hwa
        rw [hres.1, hwj, hja]
    · rw [insStep_gt hwa]
      have hres := ih (some j)
      rw [hw] at hres
      exact hres

/-- The key list of a style map. -/
def smKeys (m : StyleMap) : List String := m.map (fun e => e.1)

theorem mem_smKeys_iff_any (m : StyleMap) (k : String) :
    k ∈ smKeys m ↔ m.any (fun e => e.1 == k) = true := by
  constructor
  · intro h
    obtain ⟨e, he, hk⟩ := List.mem_map.1 h
    exact List.any_eq_true.2 ⟨e, he, by simp [hk]⟩
  · intro h
    obtain ⟨e, he, hk⟩ := List.any_eq_true.1 h
    rw [beq_iff_eq] at hk
    rw [← hk]
    exact List.mem_map_of_mem _ he

theorem smGetPair_none_iff (m : StyleMap) (k : String) :
    smGetPair m k = none ↔ m.any (fun e => e.1 == k) = false := by
  unfold smGetPair
  rw [Option.map_eq_none', List.find?_eq_none]
  constructor
  · intro h
    rw [Bool.eq_false_iff]
    intro hc
    rw [List.any_eq_true] at hc
    obtain ⟨e, he, hek⟩ := hc
    exact h e he hek
  · intro h e he hek
    rw [Bool.eq_false_iff] at h
    exact h (List.any_eq_true.2 ⟨e, he, hek⟩)

theorem smGetPair_some_key_mem (m : StyleMap) (k : String) (c : Value × Specificity)
    (h : smGetPair m k = some c) : k ∈ smKeys m := by
  unfold smGetPair at h
  rw [Option.map_eq_some'] at h
  obtain ⟨e, he, hec⟩ := h
  have h1 := List.find?_some he
  have h2 := List.mem_of_find?_eq_some he
  rw [beq_iff_eq] at h1
  rw [← h1]
  exact List.mem_map_of_mem _ h2

theorem smKeys_put_present (m : StyleMap) (k : String) (vs : Value × Specificity)
    (h : m.any (fun e => e.1 == k) = true) : smKeys (smPut m k vs) = smKeys m := by
  unfold smPut
  rw [if_pos h]
  unfold smKeys
  rw [List.map_map]
  apply List.map_congr_left
  intro e _
  by_cases he : e.1 = k
  · simp [he]
  · simp [he, beq_string_false he]

theorem smKeys_put_absent (m : StyleMap) (k : String) (vs : Value × Specificity)
    (h : m.any (fun e => e.1 == k) = false) : smKeys (smPut m k vs) = smKeys m ++ [k] := by
  unfold smPut
  rw [if_neg (by rw [h]; exact Bool.false_ne_true)]
  unfold smKeys
  rw [List.map_append]
  rfl

theorem smKeys_insert_mem (m : StyleMap) (k : String) (v : Value) (s : Specificity)
    (h : k ∈ smKeys m) : smKeys (smInsert m k v s) = smKeys m := by
  unfold smInsert
  cases hg : smGetPair m k with
  | none =>
    rw [smGetPair_none_iff] at hg
    rw [mem_smKeys_iff_any, hg] at h
    exact absurd h Bool.false_ne_true
  | some c =>
    obtain ⟨v0, s0⟩ := c
    by_cases hw : s0.weight ≤ s.weight
    · simp only [hw, if_true]
      exact smKeys_put_present m k (v, s) ((mem_smKeys_iff_any m k).1 h)
    · simp only [hw, Bool.false_eq_true, if_false]

theorem smKeys_insert_self (m : StyleMap) (k : String) (v : Value) (s : Specificity) :
    k ∈ smKeys (smInsert m k v s) := by
  unfold smInsert
  cases hg : smGetPair m k with
  | none =>
    rw [smGetPair_none_iff] at hg
    dsimp only
    rw [smKeys_put_absent m k (v, s) hg]
    simp
  | some c =>
    obtain ⟨v0, s0⟩ := c
    have hk := smGetPair_some_key_mem m k (v0, s0) hg
    by_cases hw : s0.weight ≤ s.weight
    · simp only [hw, if_true]
      rw [smKeys_put_present m k (v, s) ((mem_smKeys_iff_any m k).1 hk)]
      exact hk
    · simp only [hw, Bool.false_eq_true, if_false]
      exact hk

theorem smKeys_insert_superset (m : StyleMap) (k k' : String) (v : Value) (s : Specificity)
    (h : k' ∈ smKeys m) : k' ∈ smKeys (smInsert m k v s) := by
  unfold smInsert
  cases hg : smGetPair m k with
  | none =>
    rw [smGetPair_none_iff] at hg
    dsimp only
    rw [smKeys_put_absent m k (v, s) hg]
    exact List.mem_append_left _ h
  | some c =>
    obtain ⟨v0, s0⟩ := c
    by_cases hw : s0.weight ≤ s.weight
    · simp only [hw, if_true]
      rw [smKeys_put_present m k (v, s)
        ((mem_smKeys_iff_any m k).1 (smGetPair_some_key_mem m k (v0, s0) hg))]
      exact h
    · simp only [hw, Bool.false_eq_true, if_false]
      exact h

theorem smKeys_insert_nodup (m : StyleMap) (k : String) (v : Value) (s : Specificity)
    (h : (smKeys m).Nodup) : (smKeys (smInsert m k v s)).Nodup := by
  by_cases hk : k ∈ smKeys m
  · rw [smKeys_insert_mem m k v s hk]
    exact h
  · unfold smInsert
    cases hg : smGetPair m k with
    | none =>
      rw [smGetPair_none_iff] at hg
      dsimp only
      rw [smKeys_put_absent m k (v, s) hg]
      simp [List.nodup_append, h, hk]
    | some c =>
      exact absurd (smGetPair_some_key_mem m k c hg) hk

theorem smKeys_applyCands_superset (cs : List Cand) (m : StyleMap) (k : String)
    (h : k ∈ smKeys m) : k ∈ smKeys (applyCands m cs) := by
  induction cs generalizing m with
  | nil => exact h
  | cons c rest ih =>
    exact ih _ (smKeys_insert_superset m c.1 k c.2.1 c.2.2 h)

theorem smKeys_applyCands_mem (cs : List Cand) (m : StyleMap) :
    ∀ c ∈ cs, c.1 ∈ smKeys (applyCands m cs) := by
  induction cs generalizing m with
  | nil => exact fun c hc => absurd hc (List.not_mem_nil c)
  | cons c0 rest ih =>
    intro c hc
    rcases List.mem_cons.1 hc with hc | hc
    · subst hc
      exact smKeys_applyCands_superset rest _ c.1
        (smKeys_insert_self m c.1 c.2.1 c.2.2)
    · exact ih _ c hc

theorem smKeys_applyCands_stable (cs : List Cand) (m : StyleMap)
    (h : ∀ c ∈ cs, c.1 ∈ smKeys m) : smKeys (applyCands m cs) = smKeys m := by
  induction cs generalizing m with
  | nil => rfl
  | cons c0 rest ih =>
    have h0 : smKeys (smInsert m c0.1 c0.2.1 c0.2.2) = smKeys m :=
      smKeys_insert_mem m c0.1 c0.2.1 c0.2.2 (h c0 (List.mem_cons_self c0 rest))
    show smKeys (applyCands (smInsert m c0.1 c0.2.1 c0.2.2) rest) = smKeys m
    rw [ih _ (fun c hc => by rw [h0]; exact h c (List.mem_cons_of_mem c0 hc)), h0]

theorem smKeys_applyCands_nodup (cs : List Cand) (m : StyleMap)
    (h : (smKeys m).Nodup) : (smKeys (applyCands m cs)).Nodup := by
  induction cs generalizing m with
  | nil => exact h
  | cons c0 rest ih =>
    exact ih _ (smKeys_insert_nodup m c0.1 c0.2.1 c0.2.2 h)

theorem smGetPair_none_of_not_mem (m : StyleMap) (k : String) (h : k ∉ smKeys m) :
    smGetPair m k = none := by
  rw [smGetPair_none_iff]
  rw [mem_smKeys_iff_any] at h
  exact Bool.eq_false_iff.2 h

theorem sm_ext (m1 : StyleMap) : ∀ (m2 : StyleMap), (smKeys m1).Nodup →
    smKeys m1 = smKeys m2 → (∀ k, smGetPair m1 k = smGetPair m2 k) → m1 = m2 := by
  induction m1 with
  | nil =>
    intro m2 _ hk _
    cases m2 with
    | nil => rfl
    | cons e2 r2 => exact absurd hk.symm (by simp [smKeys])
  | cons e1 r1 ih =>
    intro m2 hnd hk hget
    cases m2 with
    | nil => exact absurd hk (by simp [smKeys])
    | cons e2 r2 =>
      unfold smKeys at hk
      simp only [List.map_cons, List.cons.injEq] at hk
      obtain ⟨hk1, hkr⟩ := hk
      have hg := hget e1.1
      unfold smGetPair at hg
      rw [List.find?_cons_of_pos _ (by simp), List.find?_cons_of_pos _ (by simp [hk1])] at hg
      simp only [Option.map_some', Option.some.injEq] at hg
      have he : e1 = e2 := by
        obtain ⟨k1, p1⟩ := e1
        obtain ⟨k2, p2⟩ := e2
        simp only at hk1 hg
        rw [hk1, hg]
      subst he
      have hnd1 : (smKeys r1).Nodup := (List.nodup_cons.1 hnd).2
      have hnotin : e1.1 ∉ smKeys r1 := (List.nodup_cons.1 hnd).1
      have hgetr : ∀ k, smGetPair r1 k = smGetPair r2 k := by
        intro k
        by_cases hke : e1.1 = k
        · have hnotin2 : e1.1 ∉ smKeys r2 := by
            unfold smKeys
            rw [← hkr]
            exact hnotin
          rw [← hke]
          rw [smGetPair_none_of_not_mem r1 e1.1 hnotin,
            smGetPair_none_of_not_mem r2 e1.1 hnotin2]
        · have hg2 := hget k
          unfold smGetPair at hg2
          rw [List.find?_cons_of_neg _ (by simp [hke]),
            List.find?_cons_of_neg _ (by simp [hke])] at hg2
          exact hg2
      rw [ih r2 hnd1 hkr hgetr]

theorem applyCands_replay (cs : List Cand) (m : StyleMap) (h : (smKeys m).Nodup) :
    applyCands (applyCands m cs) cs = applyCands m cs := by
  apply sm_ext
  · exact smKeys_applyCands_nodup cs _ (smKeys_applyCands_nodup cs m h)
  · exact smKeys_applyCands_stable cs _ (smKeys_applyCands_mem cs m)
  · intro k
    rw [smGetPair_applyCands, smGetPair_applyCands]
    exact winFold_replay _ _

/-! ## Claim C8: tree level -/

/-- Pending inherited declaration batches, in the order the matched
ancestors contributed them. -/
abbrev Pend := List (List Declaration × Specificity)

/-- The candidates contributed by one declaration list at one
specificity. -/
def declCands (ds : List Declaration) (spec : Specificity) : List Cand :=
  ds.map (fun d => (d.name, d.value, spec))

/-- The candidates contributed by a pend, batch by batch. -/
def pendCands : Pend → List Cand
  | [] => []
  | q :: rest => declCands q.1 q.2 ++ pendCands rest

/-- Application of all pending batches to a whole subtree (each batch is
one inherit-all call of apply_rule_unconditionally). -/
def pendTree (e : StyledElement) (p : Pend) : StyledElement :=
  p.foldl (fun e q => apply_rule_unconditionally e q.1 q.2 true) e

/-- Mapping pendTree over a content list, texts unchanged. -/
def pendContentsMap (p : Pend) (cs : List StyledContent) : List StyledContent :=
  cs.map (fun c =>
    match c with
    | .element el => .element (pendTree el p)
    | .text s st => .text s st)

theorem foldInsertDecls_eq_applyCands (ds : List Declaration) (m : StyleMap)
    (spec : Specificity) : foldInsertDecls m ds spec = applyCands m (declCands ds spec) := by
  induction ds generalizing m with
  | nil => rfl
  | cons d rest ih => exact ih _

theorem applyCands_append (xs ys : List Cand) (m : StyleMap) :
    applyCands m (xs ++ ys) = applyCands (applyCands m xs) ys := by
  unfold applyCands
  rw [List.foldl_append]

theorem pendTree_nil (e : StyledElement) : pendTree e [] = e := rfl

theorem pendTree_cons (e : StyledElement) (q : List Declaration × Specificity) (p : Pend) :
    pendTree e (q :: p) = pendTree (apply_rule_unconditionally e q.1 q.2 true) p := rfl

theorem pendTree_append (e : StyledElement) (p1 p2 : Pend) :
    pendTree e (p1 ++ p2) = pendTree (pendTree e p1) p2 := by
  unfold pendTree
  rw [List.foldl_append]

theorem pendContentsMap_nil (cs : List StyledContent) : pendContentsMap [] cs = cs := by
  induction cs with
  | nil => rfl
  | cons c rest ih =>
    match c with
    | .element el =>
      show StyledContent.element (pendTree el []) :: pendContentsMap [] rest
        = StyledContent.element el :: rest
      rw [pendTree_nil, ih]
    | .text s stl =>
      show StyledContent.text s stl :: pendContentsMap [] rest
        = StyledContent.text s stl :: rest
      rw [ih]

theorem pendTree_mk (p : Pend) : ∀ (n : String) (a : DOMAttributes)
    (cs : List StyledContent) (st : StyleMap),
    pendTree (.mk n a cs st) p
      = .mk n a (pendContentsMap p cs) (applyCands st (pendCands p)) := by
  induction p with
  | nil =>
    intro n a cs st
    simp only [pendTree_nil, pendCands, pendContentsMap]
    rw [show applyCands st [] = st from rfl]
    congr 1
    exact (pendContentsMap_nil cs).symm
  | cons q p ih =>
    intro n a cs st
    rw [pendTree_cons, aru_true_eq_inheritAll]
    show pendTree (.mk n a (inheritAllContents q.1 q.2 cs) (foldInsertDecls st q.1 q.2)) p = _
    rw [ih, foldInsertDecls_eq_applyCands]
    show StyledElement.mk n a _ (applyCands (applyCands st (declCands q.1 q.2)) (pendCands p)) = _
    rw [← applyCands_append]
    show _ = StyledElement.mk n a (pendContentsMap (q :: p) cs) (applyCands st (pendCands (q :: p)))
    congr 1
    rw [inheritAllContents_eq_map]
    unfold pendContentsMap
    rw [List.map_map]
    apply List.map_congr_left
    intro c _
    match c with
    | .element el =>
      show StyledContent.element (pendTree (inheritAllElt q.1 q.2 el) p) = _
      rw [← aru_true_eq_inheritAll, ← pendTree_cons]
    | .text s stl => rfl

theorem pendTree_name (e : StyledElement) (p : Pend) : (pendTree e p).name = e.name := by
  match e with
  | .mk n a cs st =>
    rw [pendTree_mk]
    rfl

theorem pendTree_attributes (e : StyledElement) (p : Pend) :
    (pendTree e p).attributes = e.attributes := by
  match e with
  | .mk n a cs st =>
    rw [pendTree_mk]
    rfl

/-- This rule deletes this element: some selector matches and the rule
carries display:none. -/
def removedBy (e : StyledElement) (r : Ruleset) : Bool :=
  (matchSpec e r).isSome && hasDisplayNone r.declarations

/-- The candidates this rule inserts directly at this element. -/
def ownCandsOf (e : StyledElement) (r : Ruleset) : List Cand :=
  match matchSpec e r with
  | some spec =>
      if hasDisplayNone r.declarations then [] else declCands r.declarations spec
  | none => []

/-- The pend the children of this element see for this rule. -/
def pendExt (e : StyledElement) (r : Ruleset) (p : Pend) : Pend :=
  match matchSpec e r with
  | some spec =>
      if hasDisplayNone r.declarations then p
      else p ++ [(r.declarations.filter (fun d => INHERITED.contains d.name), spec)]
  | none => p

/-- One rule applied, after the pending batches, across a content list:
surviving element children are rewritten, deleted ones dropped, texts
kept. -/
def ruleStepContents (r : Ruleset) (p : Pend) (cs : List StyledContent) :
    List StyledContent :=
  cs.filterMap (fun c =>
    match c with
    | .text s st => some (.text s st)
    | .element el =>
        match apply_rule (pendTree el p) r with
        | (true, _) => none
        | (false, el2) => some (.element el2))

/-- The whole pass over a content list: each rule with its pend, in
order. -/
def passContents (cs : List StyledContent) (rps : List (Ruleset × Pend)) :
    List StyledContent :=
  rps.foldl (fun cs rp => ruleStepContents rp.1 rp.2 cs) cs

theorem ruleStepContents_nil (r : Ruleset) (p : Pend) : ruleStepContents r p [] = [] := rfl

theorem ruleStepContents_cons_elt (r : Ruleset) (p : Pend) (el : StyledElement)
    (rest : List StyledContent) :
    ruleStepContents r p (.element el :: rest)
      = (match apply_rule (pendTree el p) r with
         | (true, _) => ruleStepContents r p rest
         | (false, el2) => .element el2 :: ruleStepContents r p rest) := by
  unfold ruleStepContents
  rw [List.filterMap_cons]
  dsimp only
  cases apply_rule (pendTree el p) r with
  | mk flag el2 => cases flag <;> rfl

theorem ruleStepContents_cons_text (r : Ruleset) (p : Pend) (s : String) (stl : StyleMap)
    (rest : List StyledContent) :
    ruleStepContents r p (.text s stl :: rest) = .text s stl :: ruleStepContents r p rest := by
  unfold ruleStepContents
  rw [List.filterMap_cons]

theorem applyRuleContents_pendMap (r : Ruleset) (p : Pend) (cs : List StyledContent) :
    applyRuleContents (pendContentsMap p cs) r = ruleStepContents r p cs := by
  induction cs with
  | nil =>
    show applyRuleContents [] r = ruleStepContents r p []
    rw [applyRuleContents, ruleStepContents_nil]
  | cons c rest ih =>
    match c with
    | .element el =>
      show applyRuleContents (StyledContent.element (pendTree el p) :: pendContentsMap p rest) r
        = ruleStepContents r p (StyledContent.element el :: rest)
      rw [applyRuleContents, ruleStepContents_cons_elt]
      cases apply_rule (pendTree el p) r with
      | mk flag el2 => cases flag <;> dsimp only <;> rw [ih]
    | .text s stl =>
      show applyRuleContents (StyledContent.text s stl :: pendContentsMap p rest) r
        = ruleStepContents r p (StyledContent.text s stl :: rest)
      rw [applyRuleContents, ruleStepContents_cons_text, ih]

theorem applyRuleChildren_mk (n : String) (a : DOMAttributes) (cs : List StyledContent)
    (st : StyleMap) (r : Ruleset) :
    applyRuleChildren (.mk n a cs st) r = .mk n a (applyRuleContents cs r) st := by
  rw [applyRuleChildren]

theorem matchSpec_pendTree (e : StyledElement) (p : Pend) (r : Ruleset) :
    matchSpec (pendTree e p) r = matchSpec e r :=
  matchSpec_congr _ _ (pendTree_name e p) (pendTree_attributes e p) r

/-- Removal is decided by the name and the attributes only. -/
theorem removedBy_congr (e e2 : StyledElement) (hn : e.name = e2.name)
    (ha : e.attributes = e2.attributes) (r : Ruleset) :
    removedBy e r = removedBy e2 r := by
  unfold removedBy
  rw [matchSpec_congr e e2 hn ha]

theorem ownCandsOf_congr (e e2 : StyledElement) (hn : e.name = e2.name)
    (ha : e.attributes = e2.attributes) (r : Ruleset) :
    ownCandsOf e r = ownCandsOf e2 r := by
  unfold ownCandsOf
  rw [matchSpec_congr e e2 hn ha]

theorem pendExt_congr (e e2 : StyledElement) (hn : e.name = e2.name)
    (ha : e.attributes = e2.attributes) (r : Ruleset) (p : Pend) :
    pendExt e r p = pendExt e2 r p := by
  unfold pendExt
  rw [matchSpec_congr e e2 hn ha]

theorem ownCandsOf_removed (e : StyledElement) (r : Ruleset) (h : removedBy e r = true) :
    ownCandsOf e r = [] := by
  unfold removedBy at h
  cases hm : matchSpec e r with
  | none => simp only [ownCandsOf, hm]
  | some spec =>
    rw [hm] at h
    simp only [Option.isSome_some, Bool.true_and] at h
    simp only [ownCandsOf, hm, h, if_true]

/-- A trailing inherit-all batch over a pended content list is the same
content list pended by the extended batch list. -/
theorem inheritAll_pendContentsMap (ds : List Declaration) (spec : Specificity) (p : Pend)
    (cs : List StyledContent) :
    inheritAllContents ds spec (pendContentsMap p cs) = pendContentsMap (p ++ [(ds, spec)]) cs := by
  rw [inheritAllContents_eq_map]
  unfold pendContentsMap
  rw [List.map_map]
  apply List.map_congr_left
  intro c _
  match c with
  | .element el =>
    show StyledContent.element (inheritAllElt ds spec (pendTree el p))
      = StyledContent.element (pendTree el (p ++ [(ds, spec)]))
    rw [pendTree_append, pendTree_cons, pendTree_nil, aru_true_eq_inheritAll]
  | .text s stl => rfl

/-- apply_rule on a pended element, removal case: the element is reported
for deletion untouched. -/
theorem apply_rule_pendTree_removed (e : StyledElement) (p : Pend) (r : Ruleset)
    (h : removedBy e r = true) :
    apply_rule (pendTree e p) r = (true, pendTree e p) := by
  unfold removedBy at h
  rw [apply_rule, matchSpec_pendTree]
  cases hm : matchSpec e r with
  | none =>
    rw [hm] at h
    simp at h
  | some spec =>
    rw [hm] at h
    simp only [Option.isSome_some, Bool.true_and] at h
    simp only [h, if_true]

/-- apply_rule on a pended element, surviving case: the node keeps its
name and attributes, the children get this rule after the extended pend,
and the style map receives the pend candidates followed by this rule's
own candidates. -/
theorem apply_rule_pendTree (e : StyledElement) (p : Pend) (r : Ruleset)
    (h : removedBy e r = false) :
    apply_rule (pendTree e p) r
      = (false, .mk e.name e.attributes (ruleStepContents r (pendExt e r p) e.contents)
          (applyCands e.styles (pendCands p ++ ownCandsOf e r))) := by
  match e with
  | .mk n a cs st =>
    unfold removedBy at h
    rw [apply_rule, matchSpec_pendTree]
    cases hm : matchSpec (StyledElement.mk n a cs st) r with
    | none =>
      dsimp only
      rw [pendTree_mk, applyRuleChildren_mk, applyRuleContents_pendMap]
      simp only [pendExt, ownCandsOf, hm, List.append_nil, StyledElement.name,
        StyledElement.attributes, StyledElement.contents, StyledElement.styles]
    | some spec =>
      rw [hm] at h
      simp only [Option.isSome_some, Bool.true_and] at h
      dsimp only
      simp only [h, Bool.false_eq_true, if_false]
      rw [pendTree_mk, aru_false_char]
      simp only [StyledElement.name, StyledElement.attributes, StyledElement.contents,
        StyledElement.styles]
      rw [inheritAll_pendContentsMap, applyRuleChildren_mk, applyRuleContents_pendMap,
        foldInsertDecls_eq_applyCands, ← applyCands_append]
      simp only [pendExt, ownCandsOf, hm, h, Bool.false_eq_true, if_false]

/-- Root-level trace of apply_styles: each ruleset that does not delete
the root, paired with the pend its recursion hands to the root's
children. -/
def rootRps (e : StyledElement) : List Ruleset → List (Ruleset × Pend)
  | [] => []
  | r :: rest => (if removedBy e r then [] else [(r, pendExt e r [])]) ++ rootRps e rest

/-- Candidates accumulated at the root itself across a ruleset list. -/
def rootCands (e : StyledElement) : List Ruleset → List Cand
  | [] => []
  | r :: rest => ownCandsOf e r ++ rootCands e rest

theorem rootRps_congr (e e2 : StyledElement) (hn : e.name = e2.name)
    (ha : e.attributes = e2.attributes) (rs : List Ruleset) :
    rootRps e rs = rootRps e2 rs := by
  induction rs with
  | nil => rfl
  | cons r rest ih =>
    simp only [rootRps, removedBy_congr e e2 hn ha r, pendExt_congr e e2 hn ha r, ih]

theorem rootCands_congr (e e2 : StyledElement) (hn : e.name = e2.name)
    (ha : e.attributes = e2.attributes) (rs : List Ruleset) :
    rootCands e rs = rootCands e2 rs := by
  induction rs with
  | nil => rfl
  | cons r rest ih =>
    simp only [rootCands, ownCandsOf_congr e e2 hn ha r, ih]

theorem styledElement_eta (e : StyledElement) :
    StyledElement.mk e.name e.attributes e.contents e.styles = e := by
  match e with
  | .mk n a cs st => rfl

theorem passContents_cons (cs : List StyledContent) (r : Ruleset) (p : Pend)
    (rps : List (Ruleset × Pend)) :
    passContents cs ((r, p) :: rps) = passContents (ruleStepContents r p cs) rps := rfl

/-- apply_styles at the root: the root keeps its name and attributes, its
contents undergo one pass per kept ruleset with the recorded pend, and
its style map receives the root candidates in rule order. -/
theorem apply_styles_char (rs : List Ruleset) : ∀ (e : StyledElement),
    apply_styles e rs
      = .mk e.name e.attributes (passContents e.contents (rootRps e rs))
          (applyCands e.styles (rootCands e rs)) := by
  induction rs with
  | nil =>
    intro e
    exact (styledElement_eta e).symm
  | cons r rest ih =>
    intro e
    cases hrem : removedBy e r with
    | true =>
      have h1 : apply_rule e r = (true, e) := by
        have h2 := apply_rule_pendTree_removed e [] r hrem
        rw [pendTree_nil] at h2
        exact h2
      show apply_styles (apply_rule e r).2 rest = _
      rw [h1]
      show apply_styles e rest = _
      rw [ih e]
      simp only [rootRps, rootCands, hrem, if_true, List.nil_append,
        ownCandsOf_removed e r hrem]
    | false =>
      have hE := apply_rule_pendTree e [] r hrem
      rw [pendTree_nil] at hE
      show apply_styles (apply_rule e r).2 rest = _
      rw [hE]
      set e1 : StyledElement := StyledElement.mk e.name e.attributes
          (ruleStepContents r (pendExt e r []) e.contents)
          (applyCands e.styles (pendCands [] ++ ownCandsOf e r)) with he1
      show apply_styles e1 rest = _
      rw [ih e1]
      have hn1 : e1.name = e.name := by rw [he1]; rfl
      have ha1 : e1.attributes = e.attributes := by rw [he1]; rfl
      rw [rootRps_congr e1 e hn1 ha1 rest, rootCands_congr e1 e hn1 ha1 rest, hn1, ha1, he1]
      simp only [StyledElement.name, StyledElement.attributes, StyledElement.contents,
        StyledElement.styles, pendCands, List.nil_append]
      simp only [rootRps, rootCands, hrem, Bool.false_eq_true, if_false, List.singleton_append]
      rw [passContents_cons, applyCands_append]

/-- An element survives a rule/pend list when no rule in it removes the
element (removal only reads the name and the attributes). -/
def survivesAll (el : StyledElement) (rps : List (Ruleset × Pend)) : Bool :=
  rps.all (fun rp => ! removedBy el rp.1)

/-- The rule/pend list a child element sees, each pend extended at this
element. -/
def extendRps (el : StyledElement) (rps : List (Ruleset × Pend)) : List (Ruleset × Pend) :=
  rps.map (fun rp => (rp.1, pendExt el rp.1 rp.2))

/-- The candidates a surviving element collects across a rule/pend list:
per rule, first the pend candidates, then the rule's own. -/
def eltCands (el : StyledElement) : List (Ruleset × Pend) → List Cand
  | [] => []
  | rp :: rest => (pendCands rp.2 ++ ownCandsOf el rp.1) ++ eltCands el rest

theorem survivesAll_congr (el el2 : StyledElement) (hn : el.name = el2.name)
    (ha : el.attributes = el2.attributes) (rps : List (Ruleset × Pend)) :
    survivesAll el rps = survivesAll el2 rps := by
  unfold survivesAll
  simp only [removedBy_congr el el2 hn ha]

theorem extendRps_congr (el el2 : StyledElement) (hn : el.name = el2.name)
    (ha : el.attributes = el2.attributes) (rps : List (Ruleset × Pend)) :
    extendRps el rps = extendRps el2 rps := by
  unfold extendRps
  simp only [pendExt_congr el el2 hn ha]

theorem eltCands_congr (el el2 : StyledElement) (hn : el.name = el2.name)
    (ha : el.attributes = el2.attributes) (rps : List (Ruleset × Pend)) :
    eltCands el rps = eltCands el2 rps := by
  induction rps with
  | nil => rfl
  | cons rp rest ih =>
    simp only [eltCands, ownCandsOf_congr el el2 hn ha, ih]

/-- What one pass does to one child. -/
def passChild (rps : List (Ruleset × Pend)) (c : StyledContent) : Option StyledContent :=
  match c with
  | .text s st => some (.text s st)
  | .element el =>
      if survivesAll el rps then
        some (.element (.mk el.name el.attributes
          (passContents el.contents (extendRps el rps))
          (applyCands el.styles (eltCands el rps))))
      else none

/-- passContents acts on the children independently: texts are kept, and
an element child survives iff no listed rule removes it, in which case
its subtree sees the extended pends and its style map the accumulated
candidates. -/
theorem passContents_char (rps : List (Ruleset × Pend)) : ∀ (cs : List StyledContent),
    passContents cs rps = cs.filterMap (passChild rps) := by
  induction rps with
  | nil =>
    intro cs
    show cs = List.filterMap (passChild []) cs
    induction cs with
    | nil => rfl
    | cons c rest ihc =>
      rw [List.filterMap_cons]
      cases c with
      | text s st =>
        show StyledContent.text s st :: rest
          = StyledContent.text s st :: List.filterMap (passChild []) rest
        rw [← ihc]
      | element el =>
        show StyledContent.element el :: rest
          = StyledContent.element (StyledElement.mk el.name el.attributes el.contents el.styles)
              :: List.filterMap (passChild []) rest
        rw [styledElement_eta, ← ihc]
  | cons rp rest ih =>
    intro cs
    obtain ⟨r0, p0⟩ := rp
    rw [passContents_cons, ih]
    unfold ruleStepContents
    rw [List.filterMap_filterMap]
    congr 1
    funext c
    cases c with
    | text s st => rfl
    | element el =>
      show (match apply_rule (pendTree el p0) r0 with
            | (true, _) => (none : Option StyledContent)
            | (false, el2) => some (StyledContent.element el2)).bind (passChild rest)
        = passChild ((r0, p0) :: rest) (StyledContent.element el)
      cases hrem : removedBy el r0 with
      | true =>
        rw [apply_rule_pendTree_removed el p0 r0 hrem]
        show (none : Option StyledContent)
          = passChild ((r0, p0) :: rest) (StyledContent.element el)
        simp only [passChild, survivesAll, List.all_cons, hrem, Bool.not_true,
          Bool.false_and, Bool.false_eq_true, if_false]
      | false =>
        rw [apply_rule_pendTree el p0 r0 hrem]
        set el1 : StyledElement := StyledElement.mk el.name el.attributes
            (ruleStepContents r0 (pendExt el r0 p0) el.contents)
            (applyCands el.styles (pendCands p0 ++ ownCandsOf el r0)) with hel1
        show passChild rest (StyledContent.element el1)
          = passChild ((r0, p0) :: rest) (StyledContent.element el)
        have hn1 : el1.name = el.name := by rw [hel1]; rfl
        have ha1 : el1.attributes = el.attributes := by rw [hel1]; rfl
        simp only [passChild]
        rw [survivesAll_congr el1 el hn1 ha1 rest, extendRps_congr el1 el hn1 ha1 rest,
          eltCands_congr el1 el hn1 ha1 rest]
        simp only [survivesAll, List.all_cons, hrem, Bool.not_false, Bool.true_and]
        simp only [extendRps, List.map_cons]
        rw [passContents_cons]
        simp only [eltCands]
        rw [applyCands_append, hel1]
        simp only [StyledElement.name, StyledElement.attributes, StyledElement.contents,
          StyledElement.styles]

mutual

/-- Well-formedness inherited from the Rust representation: a HashMap
never holds a key twice, so every style map in the tree has nodup
keys. -/
def eltWF : StyledElement → Prop
  | .mk _ _ cs st => (smKeys st).Nodup ∧ contentsWF cs

/-- Well-formedness of a content list. -/
def contentsWF : List StyledContent → Prop
  | [] => True
  | .element e :: rest => eltWF e ∧ contentsWF rest
  | .text _ _ :: rest => contentsWF rest

end

theorem eltWF_elim (e : StyledElement) (h : eltWF e) :
    (smKeys e.styles).Nodup ∧ contentsWF e.contents := by
  match e with
  | .mk n a cs st => exact h

theorem contentsWF_mem (cs : List StyledContent) :
    contentsWF cs → ∀ (el : StyledElement), StyledContent.element el ∈ cs → eltWF el := by
  induction cs with
  | nil =>
    intro _ el hm
    exact absurd hm (List.not_mem_nil _)
  | cons c rest ih =>
    intro h el hm
    cases c with
    | element e2 =>
      rcases List.mem_cons.1 hm with heq | hmem
      · injection heq with h1
        rw [h1]
        exact h.1
      · exact ih h.2 el hmem
    | text s stl =>
      rcases List.mem_cons.1 hm with heq | hmem
      · exact StyledContent.noConfusion heq
      · exact ih h el hmem

theorem contentsSize_mem_lt (cs : List StyledContent) (el : StyledElement)
    (hm : StyledContent.element el ∈ cs) : contentsSize el.contents < contentsSize cs := by
  induction cs with
  | nil => exact absurd hm (List.not_mem_nil _)
  | cons c rest ih =>
    rcases List.mem_cons.1 hm with heq | hmem
    · rw [← heq]
      show contentsSize el.contents < contentsSize (StyledContent.element el :: rest)
      match el with
      | .mk n a ecs est =>
        simp only [contentsSize, eltSize, StyledElement.contents]
        omega
    · calc contentsSize el.contents < contentsSize rest := ih hmem
        _ ≤ contentsSize (c :: rest) := by
          cases c with
          | element e2 => simp only [contentsSize]; omega
          | text s stl => simp only [contentsSize]; omega

theorem filterMapCongrMem {α β : Type} (f g : α → Option β) :
    ∀ (l : List α), (∀ a ∈ l, f a = g a) → l.filterMap f = l.filterMap g
  | [], _ => rfl
  | a :: l, h => by
    rw [List.filterMap_cons, List.filterMap_cons, h a (List.mem_cons_self a l),
      filterMapCongrMem f g l (fun x hx => h x (List.mem_cons_of_mem a hx))]

/-- A second identical pass over a content list changes nothing. -/
theorem passContents_replay (cs : List StyledContent) (hwf : contentsWF cs)
    (rps : List (Ruleset × Pend)) :
    passContents (passContents cs rps) rps = passContents cs rps := by
  rw [passContents_char rps cs, passContents_char rps, List.filterMap_filterMap]
  apply filterMapCongrMem
  intro c hc
  cases c with
  | text s st => rfl
  | element el =>
    show (passChild rps (StyledContent.element el)).bind (passChild rps)
      = passChild rps (StyledContent.element el)
    cases hsurv : survivesAll el rps with
    | false =>
      simp only [passChild, hsurv, Bool.false_eq_true, if_false]
      rfl
    | true =>
      set el1 : StyledElement := StyledElement.mk el.name el.attributes
          (passContents el.contents (extendRps el rps))
          (applyCands el.styles (eltCands el rps)) with hel1
      have h1 : passChild rps (StyledContent.element el) = some (StyledContent.element el1) := by
        simp only [passChild, hsurv, if_true, hel1]
      rw [h1]
      show passChild rps (StyledContent.element el1) = some (StyledContent.element el1)
      have hn1 : el1.name = el.name := by rw [hel1]; rfl
      have ha1 : el1.attributes = el.attributes := by rw [hel1]; rfl
      obtain ⟨hnd, hcwf⟩ := eltWF_elim el (contentsWF_mem cs hwf el hc)
      simp only [passChild]
      rw [survivesAll_congr el1 el hn1 ha1 rps, hsurv]
      rw [if_pos rfl]
      rw [extendRps_congr el1 el hn1 ha1 rps, eltCands_congr el1 el hn1 ha1 rps, hel1]
      show some (StyledContent.element (StyledElement.mk el.name el.attributes
          (passContents (passContents el.contents (extendRps el rps)) (extendRps el rps))
          (applyCands (applyCands el.styles (eltCands el rps)) (eltCands el rps))))
        = some (StyledContent.element (StyledElement.mk el.name el.attributes
          (passContents el.contents (extendRps el rps))
          (applyCands el.styles (eltCands el rps))))
      rw [passContents_replay el.contents hcwf (extendRps el rps),
        applyCands_replay _ _ hnd]
termination_by contentsSize cs
decreasing_by exact contentsSize_mem_lt cs el hc

/-- C8: apply_styles is idempotent: re-running the whole ruleset list on
an already-styled tree (whose style maps, being Rust HashMaps, carry no
duplicate keys) changes nothing — the same nodes survive and every node
keeps the identical StyleMap, winning value and specificity per
property. -/
theorem c8_apply_styles_idempotent (e : StyledElement) (rs : List Ruleset)
    (hwf : eltWF e) :
    apply_styles (apply_styles e rs) rs = apply_styles e rs := by
  obtain ⟨hnd, hcwf⟩ := eltWF_elim e hwf
  rw [apply_styles_char rs e]
  set e1 : StyledElement := StyledElement.mk e.name e.attributes
      (passContents e.contents (rootRps e rs)) (applyCands e.styles (rootCands e rs)) with he1
  rw [apply_styles_char rs e1]
  have hn1 : e1.name = e.name := by rw [he1]; rfl
  have ha1 : e1.attributes = e.attributes := by rw [he1]; rfl
  rw [rootRps_congr e1 e hn1 ha1 rs, rootCands_congr e1 e hn1 ha1 rs, hn1, ha1, he1]
  show StyledElement.mk e.name e.attributes
      (passContents (passContents e.contents (rootRps e rs)) (rootRps e rs))
      (applyCands (applyCands e.styles (rootCands e rs)) (rootCands e rs))
    = StyledElement.mk e.name e.attributes (passContents e.contents (rootRps e rs))
      (applyCands e.styles (rootCands e rs))
  rw [passContents_replay e.contents hcwf (rootRps e rs), applyCands_replay _ _ hnd]

def c8Elt : StyledElement := .mk "div" [] [.element (.mk "p" [] [] [])] []

def c8Rule : Ruleset := ⟨[.simple (.typeSel "div")], [⟨"color", .keyword "red"⟩]⟩

/-- Witness for C8 at a concrete two-node tree and a single matching
ruleset. -/
theorem c8_apply_styles_idempotent_witness :
    apply_styles (apply_styles c8Elt [c8Rule]) [c8Rule] = apply_styles c8Elt [c8Rule] :=
  c8_apply_styles_idempotent c8Elt [c8Rule] ⟨List.nodup_nil, ⟨List.nodup_nil, trivial⟩, trivial⟩

/-! ## Claim C4 -/

theorem removedBy_nodn (e : StyledElement) (r : Ruleset)
    (hd : hasDisplayNone r.declarations = false) : removedBy e r = false := by
  unfold removedBy
  rw [hd, Bool.and_false]

/-- Without display:none a rule step keeps every child and rewrites the
element children in place. -/
theorem ruleStepContents_nodn (r : Ruleset) (hd : hasDisplayNone r.declarations = false)
    (p : Pend) (cs : List StyledContent) :
    ruleStepContents r p cs = cs.map (fun c =>
      match c with
      | .element el => .element (apply_rule (pendTree el p) r).2
      | .text s st => .text s st) := by
  rw [← applyRuleContents_pendMap, applyRuleContents_nodn r hd]
  unfold pendContentsMap
  rw [List.map_map]
  apply List.map_congr_left
  intro c _
  cases c with
  | element el => rfl
  | text s st => rfl

/-- The descendant element of a styled element at a path of child
indices (only element children are addressable). -/
def descendantAt : StyledElement → List Nat → Option StyledElement
  | e, [] => some e
  | e, i :: rest =>
      match e.contents[i]? with
      | some (.element c) => descendantAt c rest
      | _ => none

/-- The descendant at a path, together with the pending inherited
batches apply_rule would hand it: each node along the path that the rule
matches (without display:none) appends its INHERITED-filtered
declaration list at its matched specificity. -/
def descendantPend (r : Ruleset) : StyledElement → List Nat → Pend → Option (StyledElement × Pend)
  | e, [], p => some (e, p)
  | e, i :: rest, p =>
      match e.contents[i]? with
      | some (.element c) => descendantPend r c rest (pendExt e r p)
      | _ => none

theorem descendantAt_nil (e : StyledElement) : descendantAt e [] = some e := rfl

theorem descendantAt_cons (e : StyledElement) (i : Nat) (rest : List Nat) :
    descendantAt e (i :: rest)
      = (match e.contents[i]? with
         | some (.element c) => descendantAt c rest
         | _ => none) := rfl

theorem descendantPend_nil (r : Ruleset) (e : StyledElement) (p : Pend) :
    descendantPend r e [] p = some (e, p) := rfl

theorem descendantPend_cons (r : Ruleset) (e : StyledElement) (i : Nat) (rest : List Nat)
    (p : Pend) :
    descendantPend r e (i :: rest) p
      = (match e.contents[i]? with
         | some (.element c) => descendantPend r c rest (pendExt e r p)
         | _ => none) := rfl

theorem pendExt_extends (e : StyledElement) (r : Ruleset) (p : Pend) :
    ∃ q : Pend, pendExt e r p = p ++ q := by
  cases hm : matchSpec e r with
  | none => exact ⟨[], by simp only [pendExt, hm, List.append_nil]⟩
  | some spec =>
    cases hdn : hasDisplayNone r.declarations with
    | true => exact ⟨[], by simp only [pendExt, hm, hdn, if_true, List.append_nil]⟩
    | false => exact ⟨[(r.declarations.filter (fun d => INHERITED.contains d.name), spec)],
        by simp only [pendExt, hm, hdn, Bool.false_eq_true, if_false]⟩

theorem descendantPend_extends (r : Ruleset) :
    ∀ (path : List Nat) (el : StyledElement) (p : Pend) (d : StyledElement) (pd : Pend),
      descendantPend r el path p = some (d, pd) → ∃ q : Pend, pd = p ++ q := by
  intro path
  induction path with
  | nil =>
    intro el p d pd hdp
    rw [descendantPend_nil] at hdp
    simp only [Option.some.injEq, Prod.mk.injEq] at hdp
    exact ⟨[], by rw [← hdp.2, List.append_nil]⟩
  | cons i rest ih =>
    intro el p d pd hdp
    rw [descendantPend_cons] at hdp
    cases hie : el.contents[i]? with
    | none =>
      rw [hie] at hdp
      exact Option.noConfusion hdp
    | some c0 =>
      rw [hie] at hdp
      cases c0 with
      | text s st => exact Option.noConfusion hdp
      | element c =>
        have hdp2 : descendantPend r c rest (pendExt el r p) = some (d, pd) := hdp
        obtain ⟨q2, hq2⟩ := ih c (pendExt el r p) d pd hdp2
        obtain ⟨q1, hq1⟩ := pendExt_extends el r p
        exact ⟨q1 ++ q2, by rw [hq2, hq1, List.append_assoc]⟩

/-- Every descendant of a pended element survives apply_rule (when the
rule has no display:none), keeps its name and attributes, and its final
style map is exactly its old map after the pending batches of its path
and then the rule's own candidates at the descendant. -/
theorem apply_rule_descendant (r : Ruleset) (hd : hasDisplayNone r.declarations = false) :
    ∀ (path : List Nat) (el : StyledElement) (p : Pend) (d : StyledElement) (pd : Pend),
      descendantPend r el path p = some (d, pd) →
      ∃ d2 : StyledElement,
        descendantAt (apply_rule (pendTree el p) r).2 path = some d2
        ∧ d2.name = d.name ∧ d2.attributes = d.attributes
        ∧ d2.styles = applyCands d.styles (pendCands pd ++ ownCandsOf d r) := by
  intro path
  induction path with
  | nil =>
    intro el p d pd hdp
    rw [descendantPend_nil] at hdp
    simp only [Option.some.injEq, Prod.mk.injEq] at hdp
    obtain ⟨h1, h2⟩ := hdp
    subst h1
    subst h2
    rw [apply_rule_pendTree el p r (removedBy_nodn el r hd)]
    exact ⟨_, rfl, rfl, rfl, rfl⟩
  | cons i rest ih =>
    intro el p d pd hdp
    rw [descendantPend_cons] at hdp
    cases hie : el.contents[i]? with
    | none =>
      rw [hie] at hdp
      exact Option.noConfusion hdp
    | some c0 =>
      rw [hie] at hdp
      cases c0 with
      | text s st => exact Option.noConfusion hdp
      | element c =>
        have hdp2 : descendantPend r c rest (pendExt el r p) = some (d, pd) := hdp
        obtain ⟨d2, hd2, hn2, ha2, hs2⟩ := ih c (pendExt el r p) d pd hdp2
        rw [apply_rule_pendTree el p r (removedBy_nodn el r hd)]
        refine ⟨d2, ?_, hn2, ha2, hs2⟩
        show descendantAt (StyledElement.mk el.name el.attributes
            (ruleStepContents r (pendExt el r p) el.contents)
            (applyCands el.styles (pendCands p ++ ownCandsOf el r))) (i :: rest) = some d2
        rw [descendantAt_cons]
        rw [styledElement_contents_mk]
        rw [ruleStepContents_nodn r hd, List.getElem?_map, hie]
        show descendantAt (apply_rule (pendTree c (pendExt el r p)) r).2 rest = some d2
        exact hd2

/-- C4: when a ruleset matches an element (and does not carry
display:none), every declaration is inserted at that element at the
matched maximal specificity; all children are kept; and every descendant
element, at every depth, survives with its name and attributes, its
final style map being exactly its old map after the pending batches of
its path — of which the first is precisely the declarations whose names
are in the INHERITED allow-list, at that same matched specificity — and,
last, the full declaration list at the descendant's own matched
specificity when the rule also matches the descendant (ownCandsOf is
empty on an unmatched descendant, so such a descendant receives the
inherited batches and nothing else). -/
theorem c4_inherited_subset :
    ∀ (e : StyledElement) (r : Ruleset) (spec : Specificity),
      matchSpec e r = some spec →
      hasDisplayNone r.declarations = false →
      ((apply_rule e r).2.styles = foldInsertDecls e.styles r.declarations spec)
      ∧ ((apply_rule e r).2.contents.length = e.contents.length)
      ∧ (∀ (path : List Nat) (d : StyledElement) (pd : Pend),
          path ≠ [] →
          descendantPend r e path [] = some (d, pd) →
          pd.head? = some (r.declarations.filter (fun dc => INHERITED.contains dc.name), spec)
          ∧ ∃ d2 : StyledElement,
              descendantAt (apply_rule e r).2 path = some d2
              ∧ d2.name = d.name ∧ d2.attributes = d.attributes
              ∧ d2.styles = applyCands d.styles (pendCands pd ++ ownCandsOf d r)) := by
  intro e r spec hm hd
  have hE := apply_rule_pendTree e [] r (removedBy_nodn e r hd)
  rw [pendTree_nil] at hE
  refine ⟨?_, ?_, ?_⟩
  · rw [hE]
    show applyCands e.styles (pendCands [] ++ ownCandsOf e r)
      = foldInsertDecls e.styles r.declarations spec
    rw [foldInsertDecls_eq_applyCands]
    simp only [pendCands, List.nil_append, ownCandsOf, hm, hd, Bool.false_eq_true, if_false]
  · rw [hE]
    show (ruleStepContents r (pendExt e r []) e.contents).length = e.contents.length
    rw [ruleStepContents_nodn r hd, List.length_map]
  · intro path d pd hne hdp
    refine ⟨?_, ?_⟩
    · cases path with
      | nil => exact absurd rfl hne
      | cons i rest =>
        rw [descendantPend_cons] at hdp
        cases hie : e.contents[i]? with
        | none =>
          rw [hie] at hdp
          exact Option.noConfusion hdp
        | some c0 =>
          rw [hie] at hdp
          cases c0 with
          | text s st => exact Option.noConfusion hdp
          | element c =>
            have hdp2 : descendantPend r c rest (pendExt e r []) = some (d, pd) := hdp
            obtain ⟨q, hq⟩ := descendantPend_extends r rest c (pendExt e r []) d pd hdp2
            have hp1 : pendExt e r []
                = [(r.declarations.filter (fun dc => INHERITED.contains dc.name), spec)] := by
              simp only [pendExt, hm, hd, Bool.false_eq_true, if_false, List.nil_append]
            rw [hq, hp1]
            rfl
    · have hG := apply_rule_descendant r hd path e [] d pd hdp
      rw [pendTree_nil] at hG
      exact hG

def c4Grand : StyledElement := .mk "span" [] [] []

def c4Child : StyledElement := .mk "p" [] [.element c4Grand] []

def c4Parent : StyledElement := .mk "div" [] [.element c4Child] []

def c4Rule : Ruleset :=
  ⟨[.simple (.typeSel "div")],
   [⟨"color", .keyword "green"⟩, ⟨"width", .number 100⟩]⟩

def c4Pend : Pend :=
  [(c4Rule.declarations.filter (fun dc => INHERITED.contains dc.name), ⟨0, 0, 0, 1⟩)]

/-- Witness for C4: a div parent with a p child and a span grandchild,
matched only at the parent by a rule declaring color (inheritable) and
width (not inheritable); the grandchild at depth two receives exactly
the filtered batch. -/
theorem c4_inherited_subset_witness :
    ((apply_rule c4Parent c4Rule).2.styles
        = foldInsertDecls c4Parent.styles c4Rule.declarations ⟨0, 0, 0, 1⟩)
    ∧ ((apply_rule c4Parent c4Rule).2.contents.length = c4Parent.contents.length)
    ∧ (c4Pend.head?
        = some (c4Rule.declarations.filter (fun dc => INHERITED.contains dc.name), ⟨0, 0, 0, 1⟩)
      ∧ ∃ d2 : StyledElement,
          descendantAt (apply_rule c4Parent c4Rule).2 [0, 0] = some d2
          ∧ d2.name = c4Grand.name ∧ d2.attributes = c4Grand.attributes
          ∧ d2.styles = applyCands c4Grand.styles (pendCands c4Pend ++ ownCandsOf c4Grand c4Rule)) := by
  have h := c4_inherited_subset c4Parent c4Rule ⟨0, 0, 0, 1⟩ (by rfl) (by rfl)
  exact ⟨h.1, h.2.1, h.2.2 [0, 0] c4Grand c4Pend (by simp) (by rfl)⟩
